import Mathlib

/-!
Verification of the bazel-lsp target-trie, completion-trigger and
deps-formatter logic.

The Rust sources are embedded shallowly:
* `src/target_trie.rs` — `RuleInfo`, `TrieNode`, `TargetTrie` with
  `insert_target` and `starts_with`.  Rust's `HashMap<char, TrieNode>` is
  modelled as an association list with unique keys (`entry`/`or_insert`
  preserves key uniqueness; `get` is association-list lookup).  The explicit
  stack DFS of `starts_with` visits every node of the subtree exactly once
  in an unspecified order (HashMap iteration order); it is modelled as a
  structural traversal collecting the same multiset of rule groups.
* `src/server.rs` — `find_trigger_position` and
  `create_edit_text_in_workspace`.  Rust byte indices are modelled as
  character indices (all characters the control flow inspects are ASCII).
* `src/parser.rs` — the per-`deps`-list core of `sort_deps_in_text`
  (lines 316–374): extraction of entries from the captured list text,
  first-occurrence deduplication, lexicographic sort and re-rendering.
  The tree-sitter structural matching that locates the `deps` list is an
  external capability and is not modelled; the formatter core maps the
  captured list text to the replacement text `deps = [...]`.

Strings are modelled as `List Char`; UTF-8 byte-wise comparison of Rust
`String` agrees with lexicographic comparison of the character lists.
-/

namespace BazelLsp

/-- Rust `str::split(sep)` on a single-character separator: always returns at
least one (possibly empty) part, empty parts preserved. -/
def splitOnChar (sep : Char) : List Char → List (List Char)
  | [] => [[]]
  | c :: rest =>
    let r := splitOnChar sep rest
    if c = sep then
      [] :: r
    else
      match r with
      | [] => [[c]]
      | g :: gs => (c :: g) :: gs

/-- Concatenation of the parts of a split (the characters the nested
`for part in parts { for c in part.chars() }` loops visit, in order). -/
def concatParts : List (List Char) → List Char
  | [] => []
  | p :: ps => p ++ concatParts ps

/-- Rust `RuleInfo` of `src/target_trie.rs`.  `target_trie.rs` declares the field
`name`; `server.rs` (`RuleInfo::new` at line 618, `rule.full_build_path`)
additionally uses `full_build_path`.  The trie never inspects the payload. -/
structure RuleInfo where
  name : String
  full_build_path : String
deriving DecidableEq, Repr

/-- Rust `TrieNode` of `src/target_trie.rs` with fields `char`, `is_end`,
`is_package_end`, `rules` and `children`, the children map modelled as an
association list with unique character keys. -/
inductive TrieNode where
  | mk : Char → Bool → Bool → List RuleInfo → List (Char × TrieNode) → TrieNode
deriving Inhabited

def TrieNode.char : TrieNode → Char
  | .mk c _ _ _ _ => c

def TrieNode.is_end : TrieNode → Bool
  | .mk _ e _ _ _ => e

def TrieNode.is_package_end : TrieNode → Bool
  | .mk _ _ pe _ _ => pe

def TrieNode.rules : TrieNode → List RuleInfo
  | .mk _ _ _ rs _ => rs

def TrieNode.children : TrieNode → List (Char × TrieNode)
  | .mk _ _ _ _ cs => cs

/-- Constructor `TrieNode::new(char)`. -/
def TrieNode.new (c : Char) : TrieNode :=
  .mk c false false [] []

/-- Struct `TargetTrie` owns the root node (root char is `'\0'`). -/
structure TargetTrie where
  root : TrieNode

/-- Constructor `TargetTrie::new()`. -/
def TargetTrie.new : TargetTrie :=
  ⟨.mk '\x00' false false [] []⟩

/-- Lookup `HashMap::get(&c)` on the children map. -/
def findChild (c : Char) : List (Char × TrieNode) → Option TrieNode
  | [] => none
  | (c', t) :: rest => if c' = c then some t else findChild c rest

/-- The path split used by `insert_target` (target_trie.rs lines 50–55):
`path.split(':')` and take parts 0 and 1 when a `':'` is present (so the
split is at the FIRST colon and anything beyond a second colon is dropped),
otherwise the whole path is the rule name.  The fallback arm is unreachable:
`contains(':')` guarantees at least two parts. -/
def split_insert (path : List Char) : List Char × List Char :=
  if path.contains ':' then
    match splitOnChar ':' path with
    | p0 :: p1 :: _ => (p0, p1)
    | _ => ([], [])
  else
    ([], path)

/-- The path split used by `starts_with` (target_trie.rs lines 101–106):
same first-colon split when a `':'` is present, otherwise the whole string
is the package path and the rule part is empty. -/
def split_search (pfx : List Char) : List Char × List Char :=
  if pfx.contains ':' then
    match splitOnChar ':' pfx with
    | p0 :: p1 :: _ => (p0, p1)
    | _ => ([], [])
  else
    (pfx, [])

/-- One step of the insertion walk: descend along a character, or set
`is_package_end` on the current node (the package segment boundary mark,
target_trie.rs lines 67–69). -/
inductive InsStep where
  | ch : Char → InsStep
  | markPkg : InsStep

/-- Models `children.entry(a).or_insert_with(TrieNode::new)` followed by applying
the continuation `f` (the remaining insertion) to the child: update the
child keyed `a` in place, or append a fresh node. -/
def updChildren (a : Char) (f : TrieNode → TrieNode) :
    List (Char × TrieNode) → List (Char × TrieNode)
  | [] => [(a, f (TrieNode.new a))]
  | (c', t) :: cs =>
    if c' = a then (c', f t) :: cs else (c', t) :: updChildren a f cs

/-- Walks the steps, creating missing nodes (`entry(c).or_insert_with`),
and at the end sets `is_end` and appends the rule
(target_trie.rs lines 57–81). -/
def insertSteps : List InsStep → RuleInfo → TrieNode → TrieNode
  | [], r, .mk c _ pe rs cs => .mk c true pe (rs ++ [r]) cs
  | .markPkg :: rest, r, .mk c e _ rs cs =>
    insertSteps rest r (.mk c e true rs cs)
  | .ch a :: rest, r, .mk c e pe rs cs =>
    .mk c e pe rs (updChildren a (insertSteps rest r) cs)

/-- The insertion steps of a package path: the characters of each
`'/'`-separated part, with the boundary mark after every part except the
last (target_trie.rs lines 58–70).  The `'/'` characters themselves are
never inserted. -/
def pkgSteps : List (List Char) → List InsStep
  | [] => []
  | [p] => p.map InsStep.ch
  | p :: ps => p.map InsStep.ch ++ [InsStep.markPkg] ++ pkgSteps ps

/-- All insertion steps of a path: package part (skipped when empty,
line 57) followed by the rule-name characters (lines 73–78). -/
def stepsOfPath (path : List Char) : List InsStep :=
  let s := split_insert path
  (if s.1 = [] then [] else pkgSteps (splitOnChar '/' s.1)) ++
    s.2.map InsStep.ch

/-- Method `TargetTrie::insert_target` (target_trie.rs lines 47–82). -/
def TargetTrie.insert_target (t : TargetTrie) (path : List Char)
    (r : RuleInfo) : TargetTrie :=
  ⟨insertSteps (stepsOfPath path) r t.root⟩

/-- Follow a sequence of characters through children maps; `none` as soon
as a required child is missing. -/
def walk : List Char → TrieNode → Option TrieNode
  | [], t => some t
  | c :: cs, t =>
    match findChild c t.children with
    | some n => walk cs n
    | none => none

mutual
/-- The exhaustive subtree traversal of `starts_with`: the rule group of
every node with `is_end && !rules.is_empty()` in the subtree
(target_trie.rs lines 88–98 and 127–136). -/
def collect : TrieNode → List (List RuleInfo)
  | .mk _ e _ rs cs => (if e && !rs.isEmpty then [rs] else []) ++ collectChildren cs

def collectChildren : List (Char × TrieNode) → List (List RuleInfo)
  | [] => []
  | (_, t) :: rest => collect t ++ collectChildren rest
end

/-- Method `TargetTrie::starts_with` (target_trie.rs lines 84–138): empty prefix
collects the whole tree; otherwise split the prefix, walk the characters of
the `'/'`-separated package parts, then the rule-part characters (walking
zero characters when the rule part is empty, exactly as the guarded loop
does), and collect the reached subtree. -/
def TargetTrie.starts_with (t : TargetTrie) (pfx : List Char) :
    List (List RuleInfo) :=
  if pfx = [] then
    collect t.root
  else
    let s := split_search pfx
    match walk (concatParts (splitOnChar '/' s.1)) t.root with
    | none => []
    | some n =>
      match walk s.2 n with
      | none => []
      | some n2 => collect n2

/-! ## server.rs: completion trigger detection and edit text -/

/-- Rust `TriggerType` of `src/server.rs`. -/
inductive TriggerType where
  | DoubleSlash
  | Colon
deriving DecidableEq, Repr

/-- Rust `TriggerResult` of `src/server.rs`. -/
structure TriggerResult where
  trigger_type : TriggerType
  trigger_pos : Nat
  text_after_trigger : List Char
deriving DecidableEq, Repr

/-- Rust `str::rfind` on the quote character: index of its last occurrence. -/
def rfindQuote : List Char → Option Nat
  | [] => none
  | c :: rest =>
    match rfindQuote rest with
    | some k => some (k + 1)
    | none => if c = '"' then some 0 else none

/-- Function `find_trigger_position` (server.rs lines 861–883): take the LAST quote
of the line up to the cursor (no escape handling), classify the text right
after it: two slashes, a colon, or no trigger. -/
def find_trigger_position (line_up_to_cursor : List Char) :
    Option TriggerResult :=
  match rfindQuote line_up_to_cursor with
  | none => none
  | some quote_pos =>
    let after_quote := line_up_to_cursor.drop (quote_pos + 1)
    if 2 ≤ after_quote.length ∧ after_quote.take 2 = ['/', '/'] then
      some ⟨.DoubleSlash, quote_pos + 1, after_quote.drop 2⟩
    else if after_quote.head? = some ':' then
      some ⟨.Colon, quote_pos + 1, after_quote.drop 1⟩
    else
      none

/-- Function `create_edit_text_in_workspace` (server.rs lines 388–403).  Note the
branches test `text_after_trigger` — the text AFTER the trigger characters
were stripped by `find_trigger_position` — not `trigger_type`. -/
def create_edit_text_in_workspace (trigger_result : Option TriggerResult)
    (rule : RuleInfo) : List Char :=
  match trigger_result with
  | some result =>
    if result.text_after_trigger.take 2 = ['/', '/'] then
      rule.full_build_path.data
    else if result.text_after_trigger.head? = some ':' then
      ':' :: rule.name.data
    else
      rule.full_build_path.data
  | none => rule.full_build_path.data

/-- The replacement span of a workspace completion item (server.rs lines
701–711): from `trigger_pos` (0 without a trigger) to the cursor. -/
def completion_edit_span (cursor_character : Nat)
    (trigger_result : Option TriggerResult) : Nat × Nat :=
  (match trigger_result with
   | some r => r.trigger_pos
   | none => 0,
   cursor_character)

/-! ## parser.rs: the `sort_deps_in_text` per-list core -/

/-- Rust `str::trim` (both ends; `Char.isWhitespace` agrees with Rust on
the ASCII whitespace appearing in this code path). -/
def trimList (l : List Char) : List Char :=
  ((l.dropWhile Char.isWhitespace).reverse.dropWhile Char.isWhitespace).reverse

/-- Rust `str::trim_end_matches(',')`: drop the maximal run of trailing
commas. -/
def trimEndCommas (l : List Char) : List Char :=
  (l.reverse.dropWhile (· = ',')).reverse

/-- Strip one trailing `'\r'` (the `\r\n` handling of `str::lines`). -/
def stripCR (l : List Char) : List Char :=
  if l.getLast? = some '\r' then l.dropLast else l

def linesAux : List Char → List Char → List (List Char)
  | [], cur => [cur.reverse]
  | c :: rest, cur =>
    if c = '\n' then
      match rest with
      | [] => [stripCR cur.reverse]
      | _ => stripCR cur.reverse :: linesAux rest []
    else
      linesAux rest (c :: cur)

/-- Rust `str::lines`: split at `'\n'`, strip a `'\r'` left at a line end
by a `\r\n`; no trailing empty line for a trailing newline; the final
line keeps a lone trailing `'\r'`. -/
def linesCore (s : List Char) : List (List Char) :=
  if s = [] then [] else linesAux s []

/-- Outcome of processing one line of a deps list (parser.rs lines
321–341). -/
inductive EntryResult where
  | skip
  | keep : List Char → List Char → EntryResult
  | badSlice
deriving DecidableEq, Repr

/-- The part of the per-line processing that runs on the computed
`dep_line` (parser.rs lines 328–340): require a leading quote; strip a
`#`-comment (for the key only); require the remaining `dep` to start and
end with a quote, and keep `(dep_name, dep_line)`.  `badSlice` marks the
reachable panic of `dep[1..dep.len() - 1]` when `dep` is the single
character `'"'` (start 1 > end 0). -/
def extractFromDep (dep dep_line : List Char) : EntryResult :=
  if dep.head? = some '"' ∧ dep.getLast? = some '"' then
    if 2 ≤ dep.length then
      .keep (dep.drop 1).dropLast dep_line
    else
      .badSlice
  else
    .skip

def extractFromDepLine (dep_line : List Char) : EntryResult :=
  if dep_line.head? = some '"' then
    extractFromDep
      (if dep_line.contains '#' then
        trimList (dep_line.takeWhile (· ≠ '#'))
      else
        dep_line)
      dep_line
  else
    .skip

/-- Processing of a single line of the list content (parser.rs lines
321–340): skip blank or lone-comma lines; strip trailing commas and
whitespace into `dep_line`; then process `dep_line`. -/
def extractEntry (raw : List Char) : EntryResult :=
  let line := trimList raw
  if line = [] ∨ line = [','] then
    .skip
  else
    extractFromDepLine (trimList (trimEndCommas line))

/-- The collection loop with first-occurrence deduplication
(parser.rs lines 336–338); `none` models the panic. -/
def collectDeps : List (List Char) → List (List Char × List Char) →
    Option (List (List Char × List Char))
  | [], acc => some acc
  | l :: rest, acc =>
    match extractEntry l with
    | .skip => collectDeps rest acc
    | .badSlice => none
    | .keep nm dl =>
      collectDeps rest
        (if acc.any (fun pr => pr.1 == nm) then acc else acc ++ [(nm, dl)])

/-- Byte-wise (= character-wise, by UTF-8 order preservation) lexicographic
`String::cmp` as a ≤ test. -/
def lexLe : List Char → List Char → Bool
  | [], _ => true
  | _ :: _, [] => false
  | a :: as, b :: bs => if a < b then true else if b < a then false else lexLe as bs

def insertSorted (le : α → α → Bool) (x : α) : List α → List α
  | [] => [x]
  | y :: ys => if le x y then x :: y :: ys else y :: insertSorted le x ys

/-- Insertion sort.  Rust's `deps.sort_by(|a, b| a.0.cmp(&b.0))` is a
stable sort by the dep string; after the first-occurrence deduplication the
keys are pairwise distinct, so every sort by the same total order — in
particular this one — produces the identical list. -/
def insertionSort (le : α → α → Bool) : List α → List α
  | [] => []
  | x :: xs => insertSorted le x (insertionSort le xs)

def joinSep (sep : List Char) : List (List Char) → List Char
  | [] => []
  | [x] => x
  | x :: xs => x ++ sep ++ joinSep sep xs

/-- Re-rendering (parser.rs lines 365–374): `deps = []` for an empty list,
else the fixed-indentation block with a trailing comma appended to the
joined lines. -/
def renderDeps (deps : List (List Char × List Char)) : List Char :=
  if deps = [] then
    "deps = []".data
  else
    "deps = [\n        ".data ++
      joinSep ",\n        ".data (deps.map (·.2)) ++ ",\n    ]".data

/-- The per-`deps`-list core of `sort_deps_in_text` (parser.rs lines
316–374): from the captured list-node text to the replacement text.
`none` models the slice panic inside entry extraction. -/
def sortDepsCore (list_text : List Char) : Option (List Char) :=
  let lt := trimList list_text
  if lt.head? = some '[' ∧ lt.getLast? = some ']' then
    match collectDeps (linesCore (lt.drop 1).dropLast) [] with
    | none => none
    | some deps =>
      some (renderDeps (insertionSort (fun a b => lexLe a.1 b.1) deps))
  else
    some (renderDeps [])

/-! ## Helper lemmas on `splitOnChar` and the path splits -/

theorem contains_iff (l : List Char) (a : Char) : l.contains a = true ↔ a ∈ l := by
  simp

theorem splitOnChar_ne_nil (sep : Char) (l : List Char) :
    splitOnChar sep l ≠ [] := by
  induction l with
  | nil => simp [splitOnChar]
  | cons c rest ih =>
    simp only [splitOnChar]
    by_cases h : c = sep
    · simp [h]
    · simp only [h, if_false]
      cases hr : splitOnChar sep rest with
      | nil => simp
      | cons g gs => simp

theorem splitOnChar_eq (sep : Char) (l : List Char) :
    splitOnChar sep l =
      if sep ∈ l then
        l.takeWhile (· ≠ sep) :: splitOnChar sep ((l.dropWhile (· ≠ sep)).tail)
      else
        [l] := by
  induction l with
  | nil => simp [splitOnChar]
  | cons c rest ih =>
    by_cases h : c = sep
    · subst h
      simp [splitOnChar, List.takeWhile, List.dropWhile]
    · have hne : (c = sep) = False := by simp [h]
      simp only [splitOnChar, hne, if_false, List.mem_cons]
      by_cases hm : sep ∈ rest
      · rw [ih]
        simp only [hm, if_true]
        simp [Ne.symm h, hm, List.takeWhile, List.dropWhile, h]
      · rw [ih]
        simp only [hm, if_false]
        simp [Ne.symm h, hm]

theorem takeWhile_eq_self_of_not_mem (sep : Char) (l : List Char)
    (h : sep ∉ l) : l.takeWhile (· ≠ sep) = l := by
  induction l with
  | nil => rfl
  | cons c rest ih =>
    have h1 : c ≠ sep := fun hc => h (hc ▸ List.mem_cons_self c rest)
    have h2 : sep ∉ rest := fun hm => h (List.mem_cons_of_mem _ hm)
    rw [List.takeWhile_cons, if_pos (by simp [h1]), ih h2]

/-- The second part of a split equals the chars after the first separator up
to the next separator. -/
theorem splitOnChar_second (sep : Char) (l : List Char) (h : sep ∈ l) :
    ∃ gs, splitOnChar sep l =
      l.takeWhile (· ≠ sep) ::
        ((l.dropWhile (· ≠ sep)).tail.takeWhile (· ≠ sep)) :: gs := by
  rw [splitOnChar_eq]
  simp only [h, if_true]
  set B := (l.dropWhile (· ≠ sep)).tail with hB
  by_cases hm : sep ∈ B
  · rw [splitOnChar_eq]
    simp only [hm, if_true]
    exact ⟨_, rfl⟩
  · rw [splitOnChar_eq]
    simp only [hm, if_false]
    rw [takeWhile_eq_self_of_not_mem sep B hm]
    exact ⟨[], rfl⟩

theorem split_insert_of_mem (p : List Char) (h : ':' ∈ p) :
    split_insert p =
      (p.takeWhile (· ≠ ':'),
        (p.dropWhile (· ≠ ':')).tail.takeWhile (· ≠ ':')) := by
  obtain ⟨gs, hgs⟩ := splitOnChar_second ':' p h
  unfold split_insert
  rw [if_pos ((contains_iff p ':').mpr h), hgs]

theorem split_search_of_mem (p : List Char) (h : ':' ∈ p) :
    split_search p =
      (p.takeWhile (· ≠ ':'),
        (p.dropWhile (· ≠ ':')).tail.takeWhile (· ≠ ':')) := by
  obtain ⟨gs, hgs⟩ := splitOnChar_second ':' p h
  unfold split_search
  rw [if_pos ((contains_iff p ':').mpr h), hgs]

theorem split_insert_of_not_mem (p : List Char) (h : ':' ∉ p) :
    split_insert p = ([], p) := by
  unfold split_insert
  rw [if_neg (fun hc => h ((contains_iff p ':').mp hc))]

theorem split_search_of_not_mem (p : List Char) (h : ':' ∉ p) :
    split_search p = (p, []) := by
  unfold split_search
  rw [if_neg (fun hc => h ((contains_iff p ':').mp hc))]

/-- Modelled from the spec's words, for comparison only (claim C1): split at
the LAST colon — package path is everything before it, rule name everything
after it; the whole string is the rule name when no colon is present. -/
def split_spec_last (path : List Char) : List Char × List Char :=
  if path.contains ':' then
    let ps := splitOnChar ':' path
    (joinSep [':'] ps.dropLast, ps.getLastD [])
  else
    ([], path)

/-- C1 counterexample: on `"a:b:c"` the code splits at the FIRST colon and
discards everything beyond the second colon — it does not split at the last
colon; moreover on a colon-free path the insertion split and the search
split disagree (whole string as rule name vs whole string as package
path). -/
theorem C1_counterexample :
    split_insert "a:b:c".data ≠ split_spec_last "a:b:c".data ∧
      split_insert "a/b".data ≠ split_search "a/b".data := by
  decide

/-- C1 (amended): when a `':'` is present, insertion and search agree and
both split at the FIRST colon, the rule name being the characters between
the first and the second colon (anything later is dropped); when no `':'`
is present, insertion takes the whole path as rule name with empty package
path while search takes the whole prefix as package path with empty rule
part. -/
theorem C1_theorem (p : List Char) :
    (':' ∈ p →
      split_insert p = split_search p ∧
        split_insert p =
          (p.takeWhile (· ≠ ':'),
            (p.dropWhile (· ≠ ':')).tail.takeWhile (· ≠ ':'))) ∧
    (':' ∉ p → split_insert p = ([], p) ∧ split_search p = (p, [])) := by
  constructor
  · intro h
    rw [split_insert_of_mem p h, split_search_of_mem p h]
    exact ⟨rfl, rfl⟩
  · intro h
    exact ⟨split_insert_of_not_mem p h, split_search_of_not_mem p h⟩

theorem C1_witness :
    split_insert "a:b".data = split_search "a:b".data ∧
      split_insert "ab".data = ([], "ab".data) := by
  have h1 := C1_theorem "a:b".data
  have h2 := C1_theorem "ab".data
  exact ⟨(h1.1 (by decide)).1, (h2.2 (by decide)).1⟩

/-! ## The characters actually keyed by an insertion -/

/-- The characters along which an insertion descends, in order (package
boundary marks contribute no characters). -/
def charsOfSteps (steps : List InsStep) : List Char :=
  steps.filterMap fun s =>
    match s with
    | .ch c => some c
    | .markPkg => none

theorem charsOfSteps_append (a b : List InsStep) :
    charsOfSteps (a ++ b) = charsOfSteps a ++ charsOfSteps b :=
  List.filterMap_append a b _

theorem charsOfSteps_map_ch (l : List Char) :
    charsOfSteps (l.map InsStep.ch) = l := by
  induction l with
  | nil => rfl
  | cons c rest ih => simp [charsOfSteps, List.filterMap] at ih ⊢; exact ih

theorem charsOfSteps_pkgSteps (parts : List (List Char)) :
    charsOfSteps (pkgSteps parts) = concatParts parts := by
  induction parts with
  | nil => rfl
  | cons p ps ih =>
    cases ps with
    | nil => simp [pkgSteps, concatParts, charsOfSteps_map_ch]
    | cons q qs =>
      show charsOfSteps (p.map InsStep.ch ++ [InsStep.markPkg] ++ pkgSteps (q :: qs)) = _
      rw [charsOfSteps_append, charsOfSteps_append, charsOfSteps_map_ch, ih]
      simp [charsOfSteps, concatParts]

theorem concatParts_splitOnChar (sep : Char) (l : List Char) :
    concatParts (splitOnChar sep l) = l.filter (· ≠ sep) := by
  induction l with
  | nil => rfl
  | cons c rest ih =>
    by_cases h : c = sep
    · subst h
      simp only [splitOnChar, if_pos rfl, concatParts]
      rw [ih, List.filter_cons]
      simp
    · simp only [splitOnChar, if_neg h]
      obtain ⟨g, gs, hg⟩ :
          ∃ g gs, splitOnChar sep rest = g :: gs := by
        cases hr : splitOnChar sep rest with
        | nil => exact absurd hr (splitOnChar_ne_nil sep rest)
        | cons g gs => exact ⟨g, gs, rfl⟩
      rw [hg]
      have := ih
      rw [hg] at this
      show c :: (g ++ concatParts gs) = List.filter (· ≠ sep) (c :: rest)
      rw [List.filter_cons, if_pos (by simp [h])]
      exact congrArg (c :: ·) this

/-- The full key of an insertion: the package-path characters WITHOUT the
`'/'` separators, then the rule-name characters. -/
theorem charsOfSteps_stepsOfPath (path : List Char) :
    charsOfSteps (stepsOfPath path) =
      (split_insert path).1.filter (· ≠ '/') ++ (split_insert path).2 := by
  unfold stepsOfPath
  rw [charsOfSteps_append, charsOfSteps_map_ch]
  by_cases h : (split_insert path).1 = []
  · rw [if_pos h, h]
    rfl
  · rw [if_neg h, charsOfSteps_pkgSteps, concatParts_splitOnChar]

/-- C2 counterexample: the paths `"a/bc:x"` and `"ab/c:x"` — which differ
as claimed only in the placement of the `'/'` — end at the SAME terminal
node: after inserting one rule under each, the trie holds a single rule
group containing both. -/
theorem C2_counterexample :
    ((TargetTrie.new.insert_target "a/bc:x".data
          ⟨"x", "//a/bc:x"⟩).insert_target "ab/c:x".data
          ⟨"x", "//ab/c:x"⟩).starts_with [] =
      [[⟨"x", "//a/bc:x"⟩, ⟨"x", "//ab/c:x"⟩]] := by
  decide

/-- C2 (amended): the trie key of an inserted path consists of the literal
characters of `package_path` WITHOUT its `'/'` separator characters,
followed by the characters of `rule_name`; both the `':'` and the `'/'`
separators are omitted, so `"a/bc:x"` and `"ab/c:x"` share one terminal
node and their rules end up in a single group. -/
theorem C2_theorem :
    (∀ path : List Char,
      charsOfSteps (stepsOfPath path) =
        (split_insert path).1.filter (· ≠ '/') ++ (split_insert path).2) ∧
    ∀ r1 r2 : RuleInfo,
      ((TargetTrie.new.insert_target "a/bc:x".data r1).insert_target
            "ab/c:x".data r2).starts_with [] = [[r1, r2]] := by
  exact ⟨charsOfSteps_stepsOfPath, fun r1 r2 => rfl⟩

/-! ## Walking, collecting and the insertion/search relationship -/

theorem findChild_updChildren (a : Char) (f : TrieNode → TrieNode)
    (cs : List (Char × TrieNode)) :
    findChild a (updChildren a f cs) =
      some (f ((findChild a cs).getD (TrieNode.new a))) := by
  induction cs with
  | nil => simp [updChildren, findChild]
  | cons p cs ih =>
    obtain ⟨c', t⟩ := p
    by_cases h : c' = a
    · subst h
      simp [updChildren, findChild]
    · simp [updChildren, findChild, h, ih]

theorem walk_append (a b : List Char) (t : TrieNode) :
    walk (a ++ b) t = (walk a t).bind (walk b) := by
  induction a generalizing t with
  | nil => rfl
  | cons c cs ih =>
    show (match findChild c t.children with
          | some n => walk (cs ++ b) n
          | none => none) =
        (match findChild c t.children with
          | some n => walk cs n
          | none => none).bind (walk b)
    cases findChild c t.children with
    | none => rfl
    | some n => exact ih n

/-- After an insertion, walking the inserted characters reaches a terminal
node that carries the inserted rule. -/
theorem walk_insertSteps (steps : List InsStep) (r : RuleInfo) :
    ∀ t : TrieNode, ∃ n,
      walk (charsOfSteps steps) (insertSteps steps r t) = some n ∧
        n.is_end = true ∧ r ∈ n.rules := by
  induction steps with
  | nil =>
    intro t
    obtain ⟨c, e, pe, rs, cs⟩ := t
    refine ⟨_, rfl, rfl, ?_⟩
    show r ∈ rs ++ [r]
    simp
  | cons s rest ih =>
    intro t
    obtain ⟨c, e, pe, rs, cs⟩ := t
    cases s with
    | markPkg => exact ih (.mk c e true rs cs)
    | ch a =>
      have hkey : charsOfSteps (InsStep.ch a :: rest) = a :: charsOfSteps rest := rfl
      rw [hkey]
      show ∃ n, walk (a :: charsOfSteps rest)
          (.mk c e pe rs (updChildren a (insertSteps rest r) cs)) = some n ∧ _
      unfold walk
      rw [show TrieNode.children (.mk c e pe rs (updChildren a (insertSteps rest r) cs)) =
            updChildren a (insertSteps rest r) cs from rfl,
          findChild_updChildren]
      exact ih ((findChild a cs).getD (TrieNode.new a))

theorem mem_collectChildren_of_findChild (c : Char)
    (cs : List (Char × TrieNode)) (tc : TrieNode)
    (h : findChild c cs = some tc) (g : List RuleInfo) (hg : g ∈ collect tc) :
    g ∈ collectChildren cs := by
  induction cs with
  | nil => simp [findChild] at h
  | cons p cs ih =>
    obtain ⟨c', t⟩ := p
    by_cases hc : c' = c
    · simp only [findChild] at h
      rw [if_pos hc] at h
      cases h
      exact List.mem_append_left _ hg
    · simp only [findChild] at h
      rw [if_neg hc] at h
      exact List.mem_append_right _ (ih h)

theorem mem_collect_of_walk (k : List Char) :
    ∀ t n, walk k t = some n → ∀ g ∈ collect n, g ∈ collect t := by
  induction k with
  | nil =>
    intro t n h g hg
    simp only [walk, Option.some.injEq] at h
    exact h ▸ hg
  | cons c cs ih =>
    intro t n h g hg
    obtain ⟨ch, e, pe, rs, children⟩ := t
    simp only [walk] at h
    cases hfc : findChild c (TrieNode.children (.mk ch e pe rs children)) with
    | none => rw [hfc] at h; exact absurd h (by simp)
    | some tc =>
      rw [hfc] at h
      have : g ∈ collect tc := ih tc n h g hg
      exact List.mem_append_right _
        (mem_collectChildren_of_findChild c children tc hfc g this)

theorem rules_mem_collect (n : TrieNode) (he : n.is_end = true)
    (hr : n.rules ≠ []) : n.rules ∈ collect n := by
  obtain ⟨c, e, pe, rs, cs⟩ := n
  simp only [TrieNode.is_end] at he
  simp only [TrieNode.rules] at hr ⊢
  subst he
  simp [collect, List.isEmpty_iff, hr]

/-- The character key a search walks: the package part without its `'/'`
characters, then the rule part. -/
def searchKey (pfx : List Char) : List Char :=
  (split_search pfx).1.filter (· ≠ '/') ++ (split_search pfx).2

theorem starts_with_eq (t : TargetTrie) (pfx : List Char) :
    t.starts_with pfx =
      match walk (searchKey pfx) t.root with
      | some n => collect n
      | none => [] := by
  unfold TargetTrie.starts_with searchKey
  by_cases h : pfx = []
  · subst h
    rw [if_pos rfl, split_search_of_not_mem [] (by simp)]
    rfl
  · rw [if_neg h]
    show (match walk (concatParts (splitOnChar '/' (split_search pfx).1)) t.root with
          | none => []
          | some n =>
            match walk (split_search pfx).2 n with
            | none => []
            | some n2 => collect n2) = _
    rw [concatParts_splitOnChar, walk_append]
    cases walk ((split_search pfx).1.filter (· ≠ '/')) t.root with
    | none => rfl
    | some n =>
      show (match walk (split_search pfx).2 n with
            | none => []
            | some n2 => collect n2) =
          match walk (split_search pfx).2 n with
          | some n2 => collect n2
          | none => []
      cases walk (split_search pfx).2 n with
      | none => rfl
      | some n2 => rfl

/-- C4 counterexample: a colon-free path containing `'/'` is inserted with
its `'/'` characters verbatim (rule-name branch) but searched through the
package-path branch which drops `'/'` — so searching the very path that was
just inserted finds nothing. -/
theorem C4_counterexample :
    (TargetTrie.new.insert_target "a/b".data
        ⟨"a/b", "//:a/b"⟩).starts_with "a/b".data = [] := by
  decide

/-- C4 (amended): the trie round-trip holds for every starting trie and
every path that either contains a `':'` or contains no `'/'`: after
`insert_target path rule`, `starts_with path` returns some group containing
the rule.  (For colon-free paths containing `'/'` it fails, see the
counterexample.) -/
theorem C4_theorem (t : TargetTrie) (path : List Char) (r : RuleInfo)
    (h : ':' ∈ path ∨ '/' ∉ path) :
    ∃ g, g ∈ (t.insert_target path r).starts_with path ∧ r ∈ g := by
  have hkey : searchKey path = charsOfSteps (stepsOfPath path) := by
    rw [charsOfSteps_stepsOfPath]
    unfold searchKey
    rcases h with h | h
    · rw [split_insert_of_mem path h, split_search_of_mem path h]
    · by_cases hc : ':' ∈ path
      · rw [split_insert_of_mem path hc, split_search_of_mem path hc]
      · rw [split_insert_of_not_mem path hc, split_search_of_not_mem path hc]
        show path.filter (· ≠ '/') ++ [] = path
        rw [List.append_nil]
        apply List.filter_eq_self.mpr
        intro a ha
        exact decide_eq_true (fun he => h (he ▸ ha))
  obtain ⟨n, hw, he, hr⟩ := walk_insertSteps (stepsOfPath path) r t.root
  have hres : (t.insert_target path r).starts_with path = collect n := by
    rw [starts_with_eq, hkey]
    show (match walk (charsOfSteps (stepsOfPath path))
          (insertSteps (stepsOfPath path) r t.root) with
          | some n => collect n
          | none => []) = collect n
    rw [hw]
  refine ⟨n.rules, ?_, hr⟩
  rw [hres]
  exact rules_mem_collect n he (fun hnil => by simp [hnil] at hr)

theorem C4_witness :
    ∃ g, g ∈ ((TargetTrie.new.insert_target "a:b".data
        ⟨"b", "//a:b"⟩).starts_with "a:b".data) ∧ (⟨"b", "//a:b"⟩ : RuleInfo) ∈ g :=
  C4_theorem TargetTrie.new "a:b".data ⟨"b", "//a:b"⟩ (Or.inl (by decide))

/-! ## Prefix monotonicity of the search -/

theorem takeWhile_append_pfx (q : Char → Bool) (a t : List Char) :
    ∃ u, a.takeWhile q ++ u = (a ++ t).takeWhile q := by
  induction a with
  | nil => exact ⟨t.takeWhile q, rfl⟩
  | cons c a' ih =>
    by_cases hq : q c
    · obtain ⟨u, hu⟩ := ih
      refine ⟨u, ?_⟩
      rw [List.cons_append, List.takeWhile_cons, if_pos hq,
        List.takeWhile_cons, if_pos hq, ← hu]
      rfl
    · refine ⟨[], ?_⟩
      rw [List.cons_append, List.takeWhile_cons, if_neg hq,
        List.takeWhile_cons, if_neg hq]
      rfl

theorem takeWhile_append_all (q : Char → Bool) (a t : List Char)
    (h : ∀ c ∈ a, q c = true) :
    (a ++ t).takeWhile q = a ++ t.takeWhile q := by
  induction a with
  | nil => rfl
  | cons c a' ih =>
    rw [List.cons_append, List.takeWhile_cons, if_pos (h c (by simp))]
    rw [ih (fun c hc => h c (by simp [hc])), List.cons_append]

theorem takeWhile_append_of_stop (a t : List Char) (h : ':' ∈ a) :
    (a ++ t).takeWhile (· ≠ ':') = a.takeWhile (· ≠ ':') ∧
      (a ++ t).dropWhile (· ≠ ':') = a.dropWhile (· ≠ ':') ++ t := by
  induction a with
  | nil => simp at h
  | cons c a' ih =>
    by_cases hc : c = ':'
    · subst hc
      constructor
      · rw [List.cons_append, List.takeWhile_cons, if_neg (by simp),
          List.takeWhile_cons, if_neg (by simp)]
      · rw [List.cons_append, List.dropWhile_cons, if_neg (by simp),
          List.dropWhile_cons, if_neg (by simp), List.cons_append]
    · have hm : ':' ∈ a' := by
        cases h with
        | head => exact absurd rfl hc
        | tail _ hm => exact hm
      obtain ⟨ih1, ih2⟩ := ih hm
      constructor
      · rw [List.cons_append, List.takeWhile_cons, if_pos (by simp [hc]),
          List.takeWhile_cons, if_pos (by simp [hc]), ih1]
      · rw [List.cons_append, List.dropWhile_cons, if_pos (by simp [hc]),
          List.dropWhile_cons, if_pos (by simp [hc]), ih2]

theorem dropWhile_ne_nil_of_mem (a : List Char) (h : ':' ∈ a) :
    a.dropWhile (· ≠ ':') ≠ [] := by
  intro hnil
  have := List.dropWhile_eq_nil_iff.mp hnil ':' h
  simp at this

theorem tail_append_of_ne_nil (l t : List Char) (h : l ≠ []) :
    (l ++ t).tail = l.tail ++ t := by
  cases l with
  | nil => exact absurd rfl h
  | cons x xs => rfl

theorem searchKey_of_mem (p : List Char) (h : ':' ∈ p) :
    searchKey p =
      (p.takeWhile (· ≠ ':')).filter (· ≠ '/') ++
        (p.dropWhile (· ≠ ':')).tail.takeWhile (· ≠ ':') := by
  rw [searchKey, split_search_of_mem p h]

theorem searchKey_of_not_mem (p : List Char) (h : ':' ∉ p) :
    searchKey p = p.filter (· ≠ '/') := by
  rw [searchKey, split_search_of_not_mem p h]
  exact List.append_nil _

/-- The search key of a string extends the search key of any of its string
prefixes. -/
theorem searchKey_append (p' s : List Char) :
    ∃ u, searchKey p' ++ u = searchKey (p' ++ s) := by
  by_cases hc' : ':' ∈ p'
  · have hc : ':' ∈ p' ++ s := List.mem_append_left s hc'
    rw [searchKey_of_mem p' hc', searchKey_of_mem _ hc]
    obtain ⟨h1, h2⟩ := takeWhile_append_of_stop p' s hc'
    rw [h1, h2, tail_append_of_ne_nil _ s (dropWhile_ne_nil_of_mem p' hc')]
    obtain ⟨u, hu⟩ :=
      takeWhile_append_pfx (· ≠ ':') (p'.dropWhile (· ≠ ':')).tail s
    exact ⟨u, by rw [← hu, List.append_assoc]⟩
  · by_cases hc : ':' ∈ p' ++ s
    · rw [searchKey_of_not_mem p' hc', searchKey_of_mem _ hc]
      have hall : ∀ c ∈ p', decide (c ≠ ':') = true := fun c hmem =>
        decide_eq_true (fun he => hc' (by rw [← he]; exact hmem))
      rw [takeWhile_append_all _ p' s hall, List.filter_append]
      refine ⟨(s.takeWhile (· ≠ ':')).filter (· ≠ '/') ++
          ((p' ++ s).dropWhile (· ≠ ':')).tail.takeWhile (· ≠ ':'), ?_⟩
      rw [List.append_assoc]
    · rw [searchKey_of_not_mem p' hc', searchKey_of_not_mem _ hc,
        List.filter_append]
      exact ⟨s.filter (· ≠ '/'), rfl⟩

/-- C5: prefix monotonicity of `starts_with` — for any string prefix `p'`
of `p`, a non-empty search result for `p` forces a non-empty result for
`p'` whose rules (by identity) include every rule returned for `p`. -/
theorem C5_theorem (t : TargetTrie) (p p' : List Char)
    (hpfx : ∃ s, p' ++ s = p) (hne : t.starts_with p ≠ []) :
    t.starts_with p' ≠ [] ∧
      ∀ r g, g ∈ t.starts_with p → r ∈ g →
        ∃ g', g' ∈ t.starts_with p' ∧ r ∈ g' := by
  obtain ⟨s, hs⟩ := hpfx
  subst hs
  obtain ⟨u, hu⟩ := searchKey_append p' s
  rw [starts_with_eq] at hne
  cases hwk : walk (searchKey (p' ++ s)) t.root with
  | none => rw [hwk] at hne; exact absurd rfl hne
  | some n =>
    rw [hwk] at hne
    have hbind : (walk (searchKey p') t.root).bind (walk u) = some n := by
      rw [← walk_append, hu, hwk]
    cases hwk' : walk (searchKey p') t.root with
    | none => rw [hwk'] at hbind; exact absurd hbind (by simp)
    | some n' =>
      rw [hwk'] at hbind
      have hwu : walk u n' = some n := hbind
      have hres : t.starts_with (p' ++ s) = collect n := by
        rw [starts_with_eq, hwk]
      have hres' : t.starts_with p' = collect n' := by
        rw [starts_with_eq, hwk']
      have hsub : ∀ g ∈ collect n, g ∈ collect n' :=
        fun g hg => mem_collect_of_walk u n' n hwu g hg
      constructor
      · rw [hres']
        obtain ⟨g, hg⟩ :=
          List.exists_mem_of_ne_nil _ (show collect n ≠ [] from hne)
        exact List.ne_nil_of_mem (hsub g hg)
      · intro r g hg hr
        rw [hres] at hg
        exact ⟨g, hres' ▸ hsub g hg, hr⟩

theorem C5_witness :
    (TargetTrie.new.insert_target "a:b".data ⟨"b", "//a:b"⟩).starts_with
        "a".data ≠ [] ∧
      ∀ r g,
        g ∈ (TargetTrie.new.insert_target "a:b".data
            ⟨"b", "//a:b"⟩).starts_with "a:b".data → r ∈ g →
          ∃ g', g' ∈ (TargetTrie.new.insert_target "a:b".data
              ⟨"b", "//a:b"⟩).starts_with "a".data ∧ r ∈ g' :=
  C5_theorem _ "a:b".data "a".data ⟨":b".data, by decide⟩ (by decide)

/-! ## Multiset of stored rules, the `is_end`/`rules` invariant -/

mutual
/-- Every rule stored anywhere in the subtree, flags ignored. -/
def allRules : TrieNode → List RuleInfo
  | .mk _ _ _ rs cs => rs ++ allRulesChildren cs

def allRulesChildren : List (Char × TrieNode) → List RuleInfo
  | [] => []
  | (_, t) :: rest => allRules t ++ allRulesChildren rest
end

mutual
/-- The structural invariant of claim C10, at every node of the subtree:
`is_end` holds exactly when the rule collection is non-empty. -/
def invNode : TrieNode → Bool
  | .mk _ e _ rs cs => (e == !rs.isEmpty) && invChildren cs

def invChildren : List (Char × TrieNode) → Bool
  | [] => true
  | (_, t) :: rest => invNode t && invChildren rest
end


theorem append_singleton_perm (x y : List α) (r : α) :
    List.Perm (x ++ [r] ++ y) ((x ++ y) ++ [r]) := by
  rw [List.append_assoc, List.append_assoc]
  exact List.Perm.append_left x List.perm_append_comm

theorem allRulesChildren_updChildren (a : Char) (r : RuleInfo)
    (f : TrieNode → TrieNode)
    (hf : ∀ t, List.Perm (allRules (f t)) (allRules t ++ [r])) :
    ∀ cs, List.Perm (allRulesChildren (updChildren a f cs))
      (allRulesChildren cs ++ [r]) := by
  intro cs
  induction cs with
  | nil =>
    show List.Perm (allRules (f (TrieNode.new a)) ++ []) ([] ++ [r])
    rw [List.append_nil, List.nil_append]
    exact hf (TrieNode.new a)
  | cons p cs ih =>
    obtain ⟨c', t⟩ := p
    by_cases hc : c' = a
    · rw [updChildren, if_pos hc]
      show List.Perm (allRules (f t) ++ allRulesChildren cs) _
      exact (List.Perm.append_right _ (hf t)).trans
        (append_singleton_perm _ _ r)
    · rw [updChildren, if_neg hc]
      show List.Perm (allRules t ++ allRulesChildren (updChildren a f cs))
        ((allRules t ++ allRulesChildren cs) ++ [r])
      rw [List.append_assoc]
      exact List.Perm.append_left _ ih

theorem allRules_insertSteps (steps : List InsStep) (r : RuleInfo) :
    ∀ t, List.Perm (allRules (insertSteps steps r t)) (allRules t ++ [r]) := by
  induction steps with
  | nil =>
    intro t
    obtain ⟨c, e, pe, rs, cs⟩ := t
    show List.Perm ((rs ++ [r]) ++ allRulesChildren cs)
      ((rs ++ allRulesChildren cs) ++ [r])
    exact append_singleton_perm rs _ r
  | cons s rest ih =>
    intro t
    obtain ⟨c, e, pe, rs, cs⟩ := t
    cases s with
    | markPkg => exact ih (.mk c e true rs cs)
    | ch a =>
      show List.Perm
        (rs ++ allRulesChildren (updChildren a (insertSteps rest r) cs))
        ((rs ++ allRulesChildren cs) ++ [r])
      rw [List.append_assoc]
      exact List.Perm.append_left rs
        (allRulesChildren_updChildren a r _ ih cs)

theorem invChildren_updChildren (a : Char) (f : TrieNode → TrieNode)
    (hfnew : invNode (f (TrieNode.new a)) = true)
    (hf : ∀ t, invNode t = true → invNode (f t) = true) :
    ∀ cs, invChildren cs = true → invChildren (updChildren a f cs) = true := by
  intro cs
  induction cs with
  | nil =>
    intro _
    show (invNode (f (TrieNode.new a)) && true) = true
    rw [hfnew]
    rfl
  | cons p cs ih =>
    obtain ⟨c', t⟩ := p
    intro h
    have h1 := (Bool.and_eq_true _ _).mp
      (show (invNode t && invChildren cs) = true from h)
    by_cases hc : c' = a
    · rw [updChildren, if_pos hc]
      show (invNode (f t) && invChildren cs) = true
      exact (Bool.and_eq_true _ _).mpr ⟨hf t h1.1, h1.2⟩
    · rw [updChildren, if_neg hc]
      show (invNode t && invChildren (updChildren a f cs)) = true
      exact (Bool.and_eq_true _ _).mpr ⟨h1.1, ih h1.2⟩

theorem invNode_new (a : Char) : invNode (TrieNode.new a) = true := rfl

theorem invNode_insertSteps (steps : List InsStep) (r : RuleInfo) :
    ∀ t, invNode t = true → invNode (insertSteps steps r t) = true := by
  induction steps with
  | nil =>
    intro t h
    obtain ⟨c, e, pe, rs, cs⟩ := t
    have h1 := (Bool.and_eq_true _ _).mp
      (show ((e == !rs.isEmpty) && invChildren cs) = true from h)
    show ((true == !(rs ++ [r]).isEmpty) && invChildren cs) = true
    refine (Bool.and_eq_true _ _).mpr ⟨?_, h1.2⟩
    have : (rs ++ [r]).isEmpty = false := by
      cases rs <;> rfl
    rw [this]
    rfl
  | cons s rest ih =>
    intro t h
    obtain ⟨c, e, pe, rs, cs⟩ := t
    cases s with
    | markPkg =>
      exact ih (.mk c e true rs cs) h
    | ch a =>
      have h1 := (Bool.and_eq_true _ _).mp
        (show ((e == !rs.isEmpty) && invChildren cs) = true from h)
      show ((e == !rs.isEmpty) &&
        invChildren (updChildren a (insertSteps rest r) cs)) = true
      exact (Bool.and_eq_true _ _).mpr
        ⟨h1.1, invChildren_updChildren a _
          (ih (TrieNode.new a) (invNode_new a)) ih cs h1.2⟩

mutual
theorem flatten_collect :
    ∀ t, invNode t = true → (collect t).flatten = allRules t
  | .mk c e pe rs cs, h => by
    have h1 := (Bool.and_eq_true _ _).mp
      (show ((e == !rs.isEmpty) && invChildren cs) = true from h)
    have he : e = !rs.isEmpty := beq_iff_eq.mp h1.1
    show ((if e && !rs.isEmpty then [rs] else []) ++
        collectChildren cs).flatten = rs ++ allRulesChildren cs
    rw [List.flatten_append, flatten_collectChildren cs h1.2]
    cases hrs : rs.isEmpty with
    | true =>
      have hnil : rs = [] := List.isEmpty_iff.mp hrs
      subst hnil
      subst he
      rfl
    | false =>
      subst he
      rw [hrs]
      show ([rs] : List (List RuleInfo)).flatten ++ _ = _
      rw [show ([rs] : List (List RuleInfo)).flatten = rs ++ [] from rfl,
        List.append_nil]

theorem flatten_collectChildren :
    ∀ cs, invChildren cs = true →
      (collectChildren cs).flatten = allRulesChildren cs
  | [], _ => rfl
  | (c, t) :: rest, h => by
    have h1 := (Bool.and_eq_true _ _).mp
      (show (invNode t && invChildren rest) = true from h)
    show (collect t ++ collectChildren rest).flatten = _
    rw [List.flatten_append, flatten_collect t h1.1,
      flatten_collectChildren rest h1.2]
    rfl
end

mutual
theorem collect_ne_nil : ∀ t g, g ∈ collect t → g ≠ []
  | .mk c e pe rs cs, g, hg => by
    have hg' : g ∈ (if e && !rs.isEmpty then [rs] else []) ++
        collectChildren cs := hg
    rcases List.mem_append.mp hg' with h | h
    · by_cases hcond : (e && !rs.isEmpty) = true
      · rw [if_pos hcond] at h
        have hrs : rs ≠ [] := by
          have h2 := (Bool.and_eq_true _ _).mp hcond
          intro hnil
          rw [hnil] at h2
          exact absurd h2.2 (by decide)
        exact (List.mem_singleton.mp h) ▸ hrs
      · rw [if_neg hcond] at h
        exact absurd h (by simp)
    · exact collectChildren_ne_nil cs g h

theorem collectChildren_ne_nil :
    ∀ cs g, g ∈ collectChildren cs → g ≠ []
  | (c, t) :: rest, g, hg => by
    have hg' : g ∈ collect t ++ collectChildren rest := hg
    rcases List.mem_append.mp hg' with h | h
    · exact collect_ne_nil t g h
    · exact collectChildren_ne_nil rest g h
end

/-- A trie built from `TargetTrie::new` by a finite sequence of
`insert_target` calls. -/
def buildTrie (L : List (List Char × RuleInfo)) : TargetTrie :=
  L.foldl (fun t pr => t.insert_target pr.1 pr.2) TargetTrie.new

theorem invNode_buildTrie_aux (L : List (List Char × RuleInfo)) :
    ∀ t : TargetTrie, invNode t.root = true →
      invNode ((L.foldl (fun t pr => t.insert_target pr.1 pr.2) t).root) =
        true := by
  induction L with
  | nil => exact fun t h => h
  | cons p L ih =>
    intro t h
    exact ih (t.insert_target p.1 p.2)
      (invNode_insertSteps (stepsOfPath p.1) p.2 t.root h)

theorem allRules_buildTrie_aux (L : List (List Char × RuleInfo)) :
    ∀ t : TargetTrie,
      List.Perm
        (allRules ((L.foldl (fun t pr => t.insert_target pr.1 pr.2) t).root))
        (allRules t.root ++ L.map Prod.snd) := by
  induction L with
  | nil => intro t; simp
  | cons p L ih =>
    intro t
    refine (ih (t.insert_target p.1 p.2)).trans ?_
    refine (List.Perm.append_right _
      (allRules_insertSteps (stepsOfPath p.1) p.2 t.root)).trans ?_
    rw [List.append_assoc]
    exact List.Perm.refl _

/-- C6: empty-prefix completeness — `starts_with ""` on a trie built by any
finite sequence of insertions returns, across all its groups, exactly the
multiset of inserted rules: one occurrence per insertion, duplicates
counted. -/
theorem C6_theorem (L : List (List Char × RuleInfo)) :
    List.Perm ((buildTrie L).starts_with []).flatten (L.map Prod.snd) := by
  have hinv : invNode (buildTrie L).root = true :=
    invNode_buildTrie_aux L TargetTrie.new rfl
  have h1 : (buildTrie L).starts_with [] = collect (buildTrie L).root := by
    rw [TargetTrie.starts_with, if_pos rfl]
  rw [h1, flatten_collect _ hinv]
  have h2 := allRules_buildTrie_aux L TargetTrie.new
  simpa using h2

/-- C10: structural invariant — on every trie reachable from
`TargetTrie::new` by insertions, every node satisfies `is_end = true` iff
its rule collection is non-empty; and (directly from the traversal's
`!rules.is_empty()` guard) every group returned by `starts_with` on any
trie is non-empty. -/
theorem C10_theorem :
    (∀ L : List (List Char × RuleInfo), invNode (buildTrie L).root = true) ∧
      ∀ (t : TargetTrie) (pfx : List Char) (g : List RuleInfo),
        g ∈ t.starts_with pfx → g ≠ [] := by
  constructor
  · exact fun L => invNode_buildTrie_aux L TargetTrie.new rfl
  · intro t pfx g hg
    rw [starts_with_eq] at hg
    cases hwk : walk (searchKey pfx) t.root with
    | none => rw [hwk] at hg; simp at hg
    | some n =>
      rw [hwk] at hg
      exact collect_ne_nil n g hg

theorem C10_witness :
    invNode (buildTrie [("a:b".data, ⟨"b", "//a:b"⟩)]).root = true ∧
      ([(⟨"b", "//a:b"⟩ : RuleInfo)] : List RuleInfo) ≠ [] :=
  ⟨C10_theorem.1 [("a:b".data, ⟨"b", "//a:b"⟩)],
    C10_theorem.2 (buildTrie [("a:b".data, ⟨"b", "//a:b"⟩)]) "a".data
      [⟨"b", "//a:b"⟩] (by decide)⟩

/-! ## Trigger detection (C9) and edit text (C3) -/

theorem getD_mem (l : List Char) (j : Nat) (d : Char) (h : j < l.length) :
    l.getD j d ∈ l := by
  induction l generalizing j with
  | nil => simp at h
  | cons c rest ih =>
    cases j with
    | zero => simp
    | succ j' =>
      have : rest.getD j' d ∈ rest := ih j' (by simpa using h)
      simp only [List.getD_cons_succ]
      exact List.mem_cons_of_mem c this

theorem rfindQuote_eq_none_iff (l : List Char) :
    rfindQuote l = none ↔ '"' ∉ l := by
  induction l with
  | nil => simp [rfindQuote]
  | cons c rest ih =>
    simp only [rfindQuote]
    cases hr : rfindQuote rest with
    | some k =>
      simp only []
      constructor
      · intro h
        exact absurd h (by simp)
      · intro h
        have : '"' ∉ rest := fun hm => h (List.mem_cons_of_mem c hm)
        rw [← ih] at this
        rw [hr] at this
        exact absurd this (by simp)
    | none =>
      have hrest : '"' ∉ rest := ih.mp hr
      by_cases hc : c = '"'
      · subst hc
        simp
      · simp [hc, hrest, Ne.symm hc]

theorem rfindQuote_spec (l : List Char) (i : Nat)
    (h : rfindQuote l = some i) :
    i < l.length ∧ l.getD i ' ' = '"' ∧
      ∀ j, i < j → j < l.length → l.getD j ' ' ≠ '"' := by
  induction l generalizing i with
  | nil => simp [rfindQuote] at h
  | cons c rest ih =>
    simp only [rfindQuote] at h
    cases hr : rfindQuote rest with
    | some k =>
      rw [hr] at h
      have hik : i = k + 1 := by
        have : some (k + 1) = some i := h
        exact (Option.some.inj this).symm
      subst hik
      obtain ⟨h1, h2, h3⟩ := ih k hr
      refine ⟨by simpa using h1, by simpa using h2, ?_⟩
      intro j hij hjl
      cases j with
      | zero => omega
      | succ j' =>
        simp only [List.getD_cons_succ]
        exact h3 j' (by omega) (by simpa using hjl)
    | none =>
      rw [hr] at h
      have hrest : '"' ∉ rest := (rfindQuote_eq_none_iff rest).mp hr
      by_cases hc : c = '"'
      · rw [if_pos hc] at h
        have hi0 : i = 0 := by
          have : some 0 = some i := h
          exact (Option.some.inj this).symm
        subst hi0
        refine ⟨by simp, by simpa using hc, ?_⟩
        intro j hij hjl
        cases j with
        | zero => omega
        | succ j' =>
          simp only [List.getD_cons_succ]
          intro hq
          exact hrest (hq ▸ getD_mem rest j' ' ' (by simpa using hjl))
      · rw [if_neg hc] at h
        exact absurd h (by simp)

theorem rfindQuote_last (l : List Char) (i : Nat) (hi : i < l.length)
    (hq : l.getD i ' ' = '"')
    (hlast : ∀ j, i < j → j < l.length → l.getD j ' ' ≠ '"') :
    rfindQuote l = some i := by
  cases hr : rfindQuote l with
  | none =>
    have : '"' ∉ l := (rfindQuote_eq_none_iff l).mp hr
    exact absurd (hq ▸ getD_mem l i ' ' hi) this
  | some i' =>
    obtain ⟨h1, h2, h3⟩ := rfindQuote_spec l i' hr
    rcases Nat.lt_trichotomy i i' with h | h | h
    · exact absurd h2 (hlast i' h h1)
    · rw [h]
    · exact absurd hq (h3 i h hi)

/-- C9 counterexample: in the line `\":x` the only quote character (index 1)
is immediately preceded by a backslash, so by the claim it must be skipped
and no completion triggered — yet the code (a plain `rfind('"')` with no
escape handling) selects it and produces a `:`-trigger. -/
theorem C9_counterexample :
    (∀ j, j < 4 → ("\\\":x".data.getD j ' ' = '"' → j = 1)) ∧
      "\\\":x".data.getD 0 ' ' = '\\' ∧
      find_trigger_position "\\\":x".data =
        some ⟨.Colon, 2, ['x']⟩ := by
  decide

/-- C9 (amended): trigger detection selects the LAST quote character of the
line up to the cursor — with no escape handling whatsoever — and yields no
completion when no quote exists; the trigger is then classified from the
text immediately after that quote (`//`, `:`, or nothing). -/
theorem C9_theorem (l : List Char) :
    ('"' ∉ l → find_trigger_position l = none) ∧
      ∀ i, i < l.length → l.getD i ' ' = '"' →
        (∀ j, i < j → j < l.length → l.getD j ' ' ≠ '"') →
        find_trigger_position l =
          (let after := l.drop (i + 1)
           if 2 ≤ after.length ∧ after.take 2 = ['/', '/'] then
             some ⟨.DoubleSlash, i + 1, after.drop 2⟩
           else if after.head? = some ':' then
             some ⟨.Colon, i + 1, after.drop 1⟩
           else
             none) := by
  constructor
  · intro h
    unfold find_trigger_position
    rw [(rfindQuote_eq_none_iff l).mpr h]
  · intro i hi hq hlast
    unfold find_trigger_position
    rw [rfindQuote_last l i hi hq hlast]

theorem C9_witness :
    find_trigger_position "\"//ab".data =
      some ⟨.DoubleSlash, 1, "ab".data⟩ := by
  have hlast : ∀ j, 0 < j → j < "\"//ab".data.length →
      "\"//ab".data.getD j ' ' ≠ '"' := by
    intro j h1 h2
    have h5 : j < 5 := h2
    interval_cases j <;> decide
  have h0 := C9_theorem "\"//ab".data
  have h := h0.2 0 (by decide) (by decide) hlast
  rw [h]
  decide

/-- C3: at the failing input — line text `":t` up to the cursor (cursor
character 3) and a matched rule named `target1` with full path
`//a/b:target1` — the detected trigger is `:` (with the colon stripped from
`text_after_trigger`), the replacement span runs from `trigger_pos` to the
cursor as claimed, but the replacement text is the rule's fully qualified
path, NOT `:` followed by the rule's local name as the claim states:
`create_edit_text_in_workspace` branches on the already-stripped
`text_after_trigger` instead of `trigger_type`. -/
theorem C3_theorem :
    find_trigger_position "\":t".data =
        some ⟨.Colon, 1, ['t']⟩ ∧
      create_edit_text_in_workspace (some ⟨.Colon, 1, ['t']⟩)
          ⟨"target1", "//a/b:target1"⟩ = "//a/b:target1".data ∧
      "//a/b:target1".data ≠ ':' :: "target1".data ∧
      completion_edit_span 3 (some ⟨.Colon, 1, ['t']⟩) = (1, 3) := by
  decide

/-! ## Sorting lemmas -/

theorem perm_insertSorted (le : α → α → Bool) (x : α) (l : List α) :
    List.Perm (insertSorted le x l) (x :: l) := by
  induction l with
  | nil => exact List.Perm.refl _
  | cons y ys ih =>
    by_cases h : le x y = true
    · rw [insertSorted, if_pos h]
    · rw [insertSorted, if_neg h]
      exact (List.Perm.cons y ih).trans (List.Perm.swap x y ys)

theorem perm_insertionSort (le : α → α → Bool) (l : List α) :
    List.Perm (insertionSort le l) l := by
  induction l with
  | nil => exact List.Perm.refl _
  | cons x xs ih =>
    exact (perm_insertSorted le x (insertionSort le xs)).trans
      (List.Perm.cons x ih)

theorem pairwise_insertSorted (le : α → α → Bool)
    (htrans : ∀ a b c, le a b = true → le b c = true → le a c = true)
    (htotal : ∀ a b, le a b = true ∨ le b a = true) (x : α) (l : List α)
    (h : l.Pairwise (fun a b => le a b = true)) :
    (insertSorted le x l).Pairwise (fun a b => le a b = true) := by
  induction l with
  | nil => simp [insertSorted]
  | cons y ys ih =>
    obtain ⟨hy, hys⟩ := List.pairwise_cons.mp h
    by_cases hxy : le x y = true
    · rw [insertSorted, if_pos hxy]
      refine List.pairwise_cons.mpr ⟨?_, h⟩
      intro z hz
      rcases List.mem_cons.mp hz with hz | hz
      · exact hz ▸ hxy
      · exact htrans x y z hxy (hy z hz)
    · rw [insertSorted, if_neg hxy]
      refine List.pairwise_cons.mpr ⟨?_, ih hys⟩
      intro z hz
      have hz' : z ∈ x :: ys :=
        (perm_insertSorted le x ys).mem_iff.mp hz
      rcases List.mem_cons.mp hz' with hz' | hz'
      · rw [hz']
        rcases htotal x y with h' | h'
        · exact absurd h' hxy
        · exact h'
      · exact hy z hz'

theorem pairwise_insertionSort (le : α → α → Bool)
    (htrans : ∀ a b c, le a b = true → le b c = true → le a c = true)
    (htotal : ∀ a b, le a b = true ∨ le b a = true) (l : List α) :
    (insertionSort le l).Pairwise (fun a b => le a b = true) := by
  induction l with
  | nil => simp [insertionSort]
  | cons x xs ih =>
    exact pairwise_insertSorted le htrans htotal x _ ih

theorem insertionSort_of_sorted (le : α → α → Bool) (l : List α)
    (h : l.Pairwise (fun a b => le a b = true)) :
    insertionSort le l = l := by
  induction l with
  | nil => rfl
  | cons x xs ih =>
    obtain ⟨hx, hxs⟩ := List.pairwise_cons.mp h
    rw [insertionSort, ih hxs]
    cases xs with
    | nil => rfl
    | cons y ys =>
      rw [insertSorted, if_pos (hx y (List.mem_cons_self y ys))]

theorem lexLe_total (a b : List Char) :
    lexLe a b = true ∨ lexLe b a = true := by
  induction a generalizing b with
  | nil => exact Or.inl rfl
  | cons x xs ih =>
    cases b with
    | nil => exact Or.inr rfl
    | cons y ys =>
      rcases lt_trichotomy x y with h | h | h
      · exact Or.inl (by rw [lexLe, if_pos h])
      · subst h
        rcases ih ys with h' | h'
        · exact Or.inl (by rw [lexLe, if_neg (lt_irrefl _), if_neg (lt_irrefl _)]; exact h')
        · exact Or.inr (by rw [lexLe, if_neg (lt_irrefl _), if_neg (lt_irrefl _)]; exact h')
      · exact Or.inr (by rw [lexLe, if_pos h])

theorem lexLe_trans (a b c : List Char) (hab : lexLe a b = true)
    (hbc : lexLe b c = true) : lexLe a c = true := by
  induction a generalizing b c with
  | nil => rfl
  | cons x xs ih =>
    cases b with
    | nil => exact absurd hab (by rw [lexLe]; simp)
    | cons y ys =>
      cases c with
      | nil => exact absurd hbc (by rw [lexLe]; simp)
      | cons z zs =>
        rw [lexLe] at hab hbc ⊢
        by_cases hxy : x < y
        · rw [if_pos hxy] at hab
          by_cases hyz : y < z
          · rw [if_pos (lt_trans hxy hyz)]
          · rw [if_neg hyz] at hbc
            by_cases hzy : z < y
            · rw [if_pos hzy] at hbc
              exact absurd hbc (by simp)
            · have : y = z := le_antisymm (not_lt.mp hzy) (not_lt.mp hyz)
              subst this
              rw [if_pos hxy]
        · rw [if_neg hxy] at hab
          by_cases hyx : y < x
          · rw [if_pos hyx] at hab
            exact absurd hab (by simp)
          · rw [if_neg hyx] at hab
            have hxy' : x = y := le_antisymm (not_lt.mp hyx) (not_lt.mp hxy)
            subst hxy'
            by_cases hxz : x < z
            · rw [if_pos hxz]
            · rw [if_neg hxz] at hbc ⊢
              by_cases hzx : z < x
              · rw [if_pos hzx] at hbc
                exact absurd hbc (by simp)
              · rw [if_neg hzx] at hbc ⊢
                exact ih ys zs hab hbc

/-! ## Deduplication and sorting of deps entries (C8) -/

/-- The kept `(dep_name, dep_line)` pairs of the lines, in order, WITHOUT
deduplication. -/
def rawKeeps (ls : List (List Char)) : List (List Char × List Char) :=
  ls.filterMap fun l =>
    match extractEntry l with
    | .keep nm dl => some (nm, dl)
    | _ => none

/-- The deps list `sort_deps_in_text` extracts from a captured list text
before sorting (`none` models the slice panic). -/
def depsOf (x : List Char) : Option (List (List Char × List Char)) :=
  let lt := trimList x
  if lt.head? = some '[' ∧ lt.getLast? = some ']' then
    collectDeps (linesCore (lt.drop 1).dropLast) []
  else
    some []

theorem sortDepsCore_eq_depsOf (x : List Char) :
    sortDepsCore x = (depsOf x).map
      (fun ds => renderDeps (insertionSort (fun a b => lexLe a.1 b.1) ds)) := by
  unfold sortDepsCore depsOf
  by_cases h : (trimList x).head? = some '[' ∧ (trimList x).getLast? = some ']'
  · rw [if_pos h, if_pos h]
    cases collectDeps (linesCore ((trimList x).drop 1).dropLast) [] with
    | none => rfl
    | some ds => rfl
  · rw [if_neg h, if_neg h]
    rfl

theorem any_fst_eq (acc : List (List Char × List Char)) (nm : List Char) :
    acc.any (fun pr => pr.1 == nm) = true ↔ nm ∈ acc.map Prod.fst := by
  rw [List.any_eq_true]
  constructor
  · rintro ⟨pr, hpr, hbeq⟩
    exact List.mem_map.mpr ⟨pr, hpr, beq_iff_eq.mp hbeq⟩
  · intro h
    obtain ⟨pr, hpr, he⟩ := List.mem_map.mp h
    exact ⟨pr, hpr, beq_iff_eq.mpr he⟩

theorem collectDeps_invariant (ls : List (List Char)) :
    ∀ acc deps, collectDeps ls acc = some deps →
      (∀ pr ∈ deps, pr ∈ acc ∨
        (pr.1 ∉ acc.map Prod.fst ∧
          (rawKeeps ls).find? (fun q => q.1 == pr.1) = some pr)) ∧
      ((acc.map Prod.fst).Nodup → (deps.map Prod.fst).Nodup) := by
  induction ls with
  | nil =>
    intro acc deps h
    have : acc = deps := by
      simpa [collectDeps] using h
    subst this
    exact ⟨fun pr hpr => Or.inl hpr, fun h => h⟩
  | cons l rest ih =>
    intro acc deps h
    cases hext : extractEntry l with
    | skip =>
      have h' : collectDeps rest acc = some deps := by
        rw [collectDeps, hext] at h
        exact h
      have hrk : rawKeeps (l :: rest) = rawKeeps rest := by
        rw [rawKeeps, List.filterMap_cons, hext]
        rfl
      rw [hrk]
      exact ih acc deps h'
    | badSlice =>
      rw [collectDeps, hext] at h
      exact absurd h (by simp)
    | keep nm dl =>
      have hrk : rawKeeps (l :: rest) = (nm, dl) :: rawKeeps rest := by
        rw [rawKeeps, List.filterMap_cons, hext]
        rfl
      rw [collectDeps, hext] at h
      have h' : collectDeps rest
          (if (acc.any fun pr => pr.1 == nm) = true then acc
           else acc ++ [(nm, dl)]) = some deps := h
      by_cases hany : acc.any (fun pr => pr.1 == nm) = true
      · rw [if_pos hany] at h'
        have hmem : nm ∈ acc.map Prod.fst := (any_fst_eq acc nm).mp hany
        obtain ⟨h1, h2⟩ := ih acc deps h'
        refine ⟨?_, h2⟩
        intro pr hpr
        rcases h1 pr hpr with hin | ⟨hnot, hfind⟩
        · exact Or.inl hin
        · refine Or.inr ⟨hnot, ?_⟩
          rw [hrk]
          have hne : (fun q : List Char × List Char => q.1 == pr.1) (nm, dl) =
              false := by
            simp only []
            rw [beq_eq_false_iff_ne]
            intro he
            exact hnot (he ▸ hmem)
          rw [List.find?_cons_of_neg _ (by simpa using hne)]
          exact hfind
      · rw [if_neg hany] at h'
        have hnm : nm ∉ acc.map Prod.fst :=
          fun hm => hany ((any_fst_eq acc nm).mpr hm)
        obtain ⟨h1, h2⟩ := ih (acc ++ [(nm, dl)]) deps h'
        constructor
        · intro pr hpr
          rcases h1 pr hpr with hin | ⟨hnot, hfind⟩
          · rcases List.mem_append.mp hin with hin | hin
            · exact Or.inl hin
            · have : pr = (nm, dl) := List.mem_singleton.mp hin
              subst this
              refine Or.inr ⟨hnm, ?_⟩
              rw [hrk]
              rw [List.find?_cons_of_pos _ (by simp)]
          · have hnot' : pr.1 ∉ acc.map Prod.fst := by
              intro hm
              exact hnot (by rw [List.map_append] at *; exact List.mem_append_left _ hm)
            have hne : pr.1 ≠ nm := by
              intro he
              apply hnot
              rw [List.map_append]
              exact List.mem_append_right _ (by simp [he])
            refine Or.inr ⟨hnot', ?_⟩
            rw [hrk]
            rw [List.find?_cons_of_neg _ (by simp [Ne.symm hne])]
            exact hfind
        · intro hnd
          apply h2
          rw [List.map_append]
          rw [List.nodup_append]
          exact ⟨hnd, by simp, by simpa using hnm⟩

/-- C8 counterexample: with deps entries `"a",  # keep` (comma before the
trailing comment) and then `"a"`, the claim requires the FIRST occurrence,
with its comment, to survive deduplication — but the code drops the first
entry entirely (its pre-comment text ends in `,` rather than `"`), and the
output contains no comment at all. -/
theorem C8_counterexample :
    sortDepsCore "[\n    \"a\",  # keep\n    \"a\"\n]".data =
        some "deps = [\n        \"a\",\n    ]".data ∧
      '#' ∈ "[\n    \"a\",  # keep\n    \"a\"\n]".data ∧
      '#' ∉ "deps = [\n        \"a\",\n    ]".data := by
  decide

/-- C8 (amended): entries are parsed line by line; an entry whose
pre-comment text does not end with a quote (such as a comma before a
trailing comment) is dropped at extraction rather than kept.  Among the
KEPT entries, deduplication by the quoted dep string keeps the first
occurrence together with its line text (`find?` on the raw keeps), the
surviving names are pairwise distinct and the final list is sorted
lexicographically (byte-wise); on the concrete instance
`["//c:x", "//a:x", "//a:x"]` (one entry per line) the output is exactly
`["//a:x", "//c:x"]`. -/
theorem C8_theorem :
    (∀ x ds, depsOf x = some ds →
      ((insertionSort (fun a b => lexLe a.1 b.1) ds).map Prod.fst).Nodup ∧
        (insertionSort (fun a b => lexLe a.1 b.1) ds).Pairwise
          (fun a b => lexLe a.1 b.1 = true) ∧
        ∀ pr ∈ insertionSort (fun a b => lexLe a.1 b.1) ds,
          (rawKeeps (linesCore ((trimList x).drop 1).dropLast)).find?
            (fun q => q.1 == pr.1) = some pr) ∧
    sortDepsCore
        "[\n        \"//c:x\",\n        \"//a:x\",\n        \"//a:x\",\n    ]".data =
      some "deps = [\n        \"//a:x\",\n        \"//c:x\",\n    ]".data := by
  constructor
  · intro x ds h
    have hperm := perm_insertionSort (fun a b => lexLe a.1 b.1) ds
    have hcore : (∀ pr ∈ ds,
        (rawKeeps (linesCore ((trimList x).drop 1).dropLast)).find?
          (fun q => q.1 == pr.1) = some pr) ∧ (ds.map Prod.fst).Nodup := by
      unfold depsOf at h
      by_cases hg : (trimList x).head? = some '[' ∧
          (trimList x).getLast? = some ']'
      · rw [if_pos hg] at h
        obtain ⟨h1, h2⟩ :=
          collectDeps_invariant (linesCore ((trimList x).drop 1).dropLast)
            [] ds h
        refine ⟨?_, h2 (by simp)⟩
        intro pr hpr
        rcases h1 pr hpr with hin | ⟨_, hfind⟩
        · simp at hin
        · exact hfind
      · rw [if_neg hg] at h
        have : ds = [] := by
          have := Option.some.inj h
          exact this.symm
        subst this
        exact ⟨fun pr hpr => absurd hpr (by simp), by simp⟩
    refine ⟨?_, ?_, ?_⟩
    · exact ((hperm.map Prod.fst).nodup_iff).mpr hcore.2
    · exact pairwise_insertionSort _
        (fun a b c hab hbc => lexLe_trans a.1 b.1 c.1 hab hbc)
        (fun a b => lexLe_total a.1 b.1) ds
    · intro pr hpr
      exact hcore.1 pr (hperm.mem_iff.mp hpr)
  · decide

theorem C8_witness :
    ((insertionSort (fun a b => lexLe a.1 b.1)
        [("//c:x".data, "\"//c:x\"".data),
         ("//a:x".data, "\"//a:x\"".data)]).map Prod.fst).Nodup := by
  have h := (C8_theorem.1
    "[\n        \"//c:x\",\n        \"//a:x\",\n        \"//a:x\",\n    ]".data
    [("//c:x".data, "\"//c:x\"".data), ("//a:x".data, "\"//a:x\"".data)]
    (by decide))
  exact h.1

/-! ## Trim, line and round-trip lemmas for the formatter (C7) -/

theorem dropWhile_append_all' (q : Char → Bool) (a z : List Char)
    (h : ∀ c ∈ a, q c = true) : (a ++ z).dropWhile q = z.dropWhile q := by
  induction a with
  | nil => rfl
  | cons c a' ih =>
    rw [List.cons_append, List.dropWhile_cons, if_pos (h c (by simp))]
    exact ih (fun c hc => h c (by simp [hc]))

theorem dropWhile_eq_self_of_head (q : Char → Bool) (z : List Char)
    (h : ∀ c, z.head? = some c → q c = false) : z.dropWhile q = z := by
  cases z with
  | nil => rfl
  | cons c rest =>
    rw [List.dropWhile_cons, if_neg (by simp [h c rfl])]

theorem head?_dropWhile_false (q : Char → Bool) (l : List Char) :
    ∀ c, (l.dropWhile q).head? = some c → q c = false := by
  induction l with
  | nil => intro c h; simp at h
  | cons x xs ih =>
    intro c h
    by_cases hq : q x = true
    · rw [List.dropWhile_cons, if_pos hq] at h
      exact ih c h
    · rw [List.dropWhile_cons, if_neg hq] at h
      have hx : x = c := by simpa using h
      rw [← hx]
      exact Bool.not_eq_true _ ▸ hq

theorem getLast?_dropWhile_of_ne_nil (q : Char → Bool) (w : List Char)
    (h : w.dropWhile q ≠ []) : (w.dropWhile q).getLast? = w.getLast? := by
  obtain ⟨t, ht⟩ := List.dropWhile_suffix (l := w) q
  calc (w.dropWhile q).getLast?
      = (t ++ w.dropWhile q).getLast? :=
        (List.getLast?_append_of_ne_nil t h).symm
    _ = w.getLast? := by rw [ht]

theorem trimList_head (l : List Char) :
    ∀ c, (trimList l).head? = some c → c.isWhitespace = false := by
  intro c h
  unfold trimList at h
  rw [List.head?_reverse] at h
  have hne : (l.dropWhile Char.isWhitespace).reverse.dropWhile
      Char.isWhitespace ≠ [] := by
    intro hz
    rw [hz] at h
    simp at h
  rw [getLast?_dropWhile_of_ne_nil _ _ hne, List.getLast?_reverse] at h
  exact head?_dropWhile_false _ l c h

theorem trimList_last (l : List Char) :
    ∀ c, (trimList l).getLast? = some c → c.isWhitespace = false := by
  intro c h
  unfold trimList at h
  rw [List.getLast?_reverse] at h
  exact head?_dropWhile_false _ _ c h

theorem trimList_noop (z : List Char)
    (hh : ∀ c, z.head? = some c → c.isWhitespace = false)
    (hl : ∀ c, z.getLast? = some c → c.isWhitespace = false) :
    trimList z = z := by
  unfold trimList
  rw [dropWhile_eq_self_of_head _ z hh]
  rw [dropWhile_eq_self_of_head _ z.reverse
    (fun c h => hl c (by rwa [List.head?_reverse] at h))]
  exact List.reverse_reverse z

theorem trimList_idem (z : List Char) :
    trimList (trimList z) = trimList z :=
  trimList_noop _ (trimList_head z) (trimList_last z)

theorem trimEndCommas_append_comma (dl : List Char)
    (h : dl.getLast? ≠ some ',') : trimEndCommas (dl ++ [',']) = dl := by
  unfold trimEndCommas
  have h1 : (dl ++ [',']).reverse = ',' :: dl.reverse := by
    rw [List.reverse_append]
    rfl
  rw [h1, List.dropWhile_cons, if_pos (by simp)]
  rw [dropWhile_eq_self_of_head _ dl.reverse ?_, List.reverse_reverse]
  intro c hc
  rw [List.head?_reverse] at hc
  have : c ≠ ',' := fun he => h (he ▸ hc)
  simp [this]

theorem extractFromDep_keep (dep dl' nm dl : List Char)
    (h : extractFromDep dep dl' = .keep nm dl) : dl = dl' := by
  unfold extractFromDep at h
  by_cases h2 : dep.head? = some '"' ∧ dep.getLast? = some '"'
  · rw [if_pos h2] at h
    by_cases h3 : 2 ≤ dep.length
    · rw [if_pos h3] at h
      cases h
      rfl
    · rw [if_neg h3] at h
      exact EntryResult.noConfusion h
  · rw [if_neg h2] at h
    exact EntryResult.noConfusion h

theorem extractFromDepLine_keep (z nm dl : List Char)
    (h : extractFromDepLine z = .keep nm dl) :
    dl = z ∧ z.head? = some '"' := by
  unfold extractFromDepLine at h
  by_cases h1 : z.head? = some '"'
  · rw [if_pos h1] at h
    exact ⟨extractFromDep_keep _ _ _ _ h, h1⟩
  · rw [if_neg h1] at h
    exact EntryResult.noConfusion h

theorem mem_of_mem_trimList (c : Char) (z : List Char)
    (h : c ∈ trimList z) : c ∈ z := by
  unfold trimList at h
  rw [List.mem_reverse] at h
  have h1 := (List.dropWhile_sublist _).subset h
  rw [List.mem_reverse] at h1
  exact (List.dropWhile_sublist _).subset h1

theorem mem_of_mem_trimEndCommas (c : Char) (z : List Char)
    (h : c ∈ trimEndCommas z) : c ∈ z := by
  unfold trimEndCommas at h
  rw [List.mem_reverse] at h
  have h1 := (List.dropWhile_sublist _).subset h
  rwa [List.mem_reverse] at h1

/-- The line a kept entry is rendered as: eight spaces, the stored line,
a comma. -/
def lineChunk (dl : List Char) : List Char :=
  "        ".data ++ (dl ++ [','])

theorem extractEntry_lineChunk (nm dl : List Char)
    (hk : extractFromDepLine dl = .keep nm dl)
    (htrim : trimList dl = dl) (hlast : dl.getLast? ≠ some ',') :
    extractEntry (lineChunk dl) = .keep nm dl := by
  have hhead : dl.head? = some '"' := (extractFromDepLine_keep dl nm dl hk).2
  have hdlne : dl ≠ [] := by
    intro hz
    rw [hz] at hhead
    simp at hhead
  have hline : trimList (lineChunk dl) = dl ++ [','] := by
    unfold trimList lineChunk
    rw [dropWhile_append_all' _ _ _ (by decide)]
    rw [dropWhile_eq_self_of_head _ (dl ++ [',']) ?_]
    · rw [dropWhile_eq_self_of_head _ (dl ++ [',']).reverse ?_]
      · exact List.reverse_reverse _
      · intro c hc
        rw [List.head?_reverse, List.getLast?_append_of_ne_nil _ (by simp)] at hc
        have hcom : ',' = c := by simpa using hc
        rw [← hcom]
        decide
    · intro c hc
      cases dl with
      | nil => exact absurd rfl hdlne
      | cons d ds =>
        have hd : d = '"' := by simpa using hhead
        have hdc : d = c := by simpa using hc
        rw [← hdc, hd]
        decide
  unfold extractEntry
  rw [hline]
  rw [if_neg ?_]
  · rw [trimEndCommas_append_comma dl hlast, htrim]
    exact hk
  · rintro (hz | hz)
    · exact absurd hz (by simp [hdlne])
    · have := congrArg List.length hz
      simp at this
      exact hdlne this

theorem stripCR_noop (z : List Char) (h : z.getLast? ≠ some '\r') :
    stripCR z = z := by
  unfold stripCR
  rw [if_neg h]

theorem mem_of_mem_stripCR (c : Char) (z : List Char)
    (h : c ∈ stripCR z) : c ∈ z := by
  unfold stripCR at h
  by_cases hz : z.getLast? = some '\r'
  · rw [if_pos hz] at h
    exact (List.dropLast_sublist z).subset h
  · rwa [if_neg hz] at h

theorem linesAux_nl (rest cur : List Char) (h : rest ≠ []) :
    linesAux ('\n' :: rest) cur = stripCR cur.reverse :: linesAux rest [] := by
  cases rest with
  | nil => exact absurd rfl h
  | cons r rs => rfl

theorem linesAux_not_nl (c : Char) (rest cur : List Char) (h : c ≠ '\n') :
    linesAux (c :: rest) cur = linesAux rest (c :: cur) := by
  show (if c = '\n' then
      (match rest with
       | [] => [stripCR cur.reverse]
       | _ => stripCR cur.reverse :: linesAux rest [])
    else linesAux rest (c :: cur)) = linesAux rest (c :: cur)
  rw [if_neg h]

theorem linesAux_no_nl (a : List Char) (h : '\n' ∉ a) :
    ∀ cur, linesAux a cur = [cur.reverse ++ a] := by
  induction a with
  | nil =>
    intro cur
    rw [linesAux, List.append_nil]
  | cons c a' ih =>
    intro cur
    have hc : c ≠ '\n' := fun he => h (he ▸ List.mem_cons_self c a')
    have h' : '\n' ∉ a' := fun hm => h (List.mem_cons_of_mem c hm)
    rw [linesAux_not_nl c a' cur hc, ih h' (c :: cur)]
    rw [List.reverse_cons, List.append_assoc]
    rfl

theorem linesAux_split (a : List Char) (ha : '\n' ∉ a) :
    ∀ rest cur, rest ≠ [] →
      linesAux (a ++ '\n' :: rest) cur =
        stripCR (cur.reverse ++ a) :: linesAux rest [] := by
  induction a with
  | nil =>
    intro rest cur hrest
    rw [List.nil_append, linesAux_nl rest cur hrest, List.append_nil]
  | cons c a' ih =>
    intro rest cur hrest
    have hc : c ≠ '\n' := fun he => ha (he ▸ List.mem_cons_self c a')
    have ha' : '\n' ∉ a' := fun hm => ha (List.mem_cons_of_mem c hm)
    rw [List.cons_append, linesAux_not_nl c _ cur hc,
      ih ha' rest (c :: cur) hrest]
    rw [List.reverse_cons, List.append_assoc]
    rfl

theorem linesAux_mem_no_nl (a : List Char) :
    ∀ cur, '\n' ∉ cur → ∀ l ∈ linesAux a cur, '\n' ∉ l := by
  induction a with
  | nil =>
    intro cur hcur l hl
    rw [linesAux] at hl
    have : l = cur.reverse := List.mem_singleton.mp hl
    subst this
    rw [List.mem_reverse]
    exact hcur
  | cons c a' ih =>
    intro cur hcur l hl
    by_cases hc : c = '\n'
    · subst hc
      cases a' with
      | nil =>
        have hl' : l ∈ [stripCR cur.reverse] := hl
        have hle : l = stripCR cur.reverse := List.mem_singleton.mp hl'
        subst hle
        intro hm
        exact hcur (List.mem_reverse.mp (mem_of_mem_stripCR _ _ hm))
      | cons b bs =>
        rw [linesAux_nl (b :: bs) cur (by simp)] at hl
        rcases List.mem_cons.mp hl with hl | hl
        · subst hl
          intro hm
          exact hcur (List.mem_reverse.mp (mem_of_mem_stripCR _ _ hm))
        · exact ih [] (by simp) l hl
    · rw [linesAux_not_nl c a' cur hc] at hl
      exact ih (c :: cur) (by
        intro hm
        rcases List.mem_cons.mp hm with hm | hm
        · exact hc hm.symm
        · exact hcur hm) l hl

theorem linesCore_no_nl (s : List Char) :
    ∀ l ∈ linesCore s, '\n' ∉ l := by
  unfold linesCore
  by_cases hs : s = []
  · rw [if_pos hs]
    intro l hl
    simp at hl
  · rw [if_neg hs]
    exact linesAux_mem_no_nl s [] (by simp)

theorem collectDeps_cons_skip (l : List Char) (ls : List (List Char))
    (acc : List (List Char × List Char)) (h : extractEntry l = .skip) :
    collectDeps (l :: ls) acc = collectDeps ls acc := by
  rw [collectDeps, h]

theorem collectDeps_cons_keep (l : List Char) (ls : List (List Char))
    (acc : List (List Char × List Char)) (nm dl : List Char)
    (h : extractEntry l = .keep nm dl) :
    collectDeps (l :: ls) acc =
      collectDeps ls
        (if acc.any (fun pr => pr.1 == nm) then acc else acc ++ [(nm, dl)]) := by
  rw [collectDeps, h]

theorem collectDeps_append (xs ys : List (List Char)) :
    ∀ acc, collectDeps (xs ++ ys) acc =
      match collectDeps xs acc with
      | none => none
      | some acc' => collectDeps ys acc' := by
  induction xs with
  | nil => intro acc; rfl
  | cons l xs ih =>
    intro acc
    cases hext : extractEntry l with
    | skip =>
      rw [show l :: xs ++ ys = l :: (xs ++ ys) from rfl,
        collectDeps_cons_skip _ _ _ hext, collectDeps_cons_skip _ _ _ hext,
        ih acc]
    | badSlice =>
      rw [show l :: xs ++ ys = l :: (xs ++ ys) from rfl,
        collectDeps, hext, collectDeps, hext]
    | keep nm dl =>
      rw [show l :: xs ++ ys = l :: (xs ++ ys) from rfl,
        collectDeps_cons_keep _ _ _ _ _ hext,
        collectDeps_cons_keep _ _ _ _ _ hext, ih]

theorem collectDeps_keeps (prs : List (List Char × List Char))
    (hx : ∀ pr ∈ prs, extractEntry (lineChunk pr.2) = .keep pr.1 pr.2) :
    ∀ acc, ((acc ++ prs).map Prod.fst).Nodup →
      collectDeps (prs.map fun pr => lineChunk pr.2) acc = some (acc ++ prs) := by
  induction prs with
  | nil =>
    intro acc _
    rw [List.append_nil]
    rfl
  | cons pr prs' ih =>
    intro acc hnd
    have hx1 : extractEntry (lineChunk pr.2) = .keep pr.1 pr.2 :=
      hx pr (List.mem_cons_self pr prs')
    rw [List.map_cons, collectDeps_cons_keep _ _ _ _ _ hx1]
    have hnotmem : pr.1 ∉ acc.map Prod.fst := by
      intro hm
      rw [List.map_append, List.nodup_append] at hnd
      exact hnd.2.2 hm (by simp)
    have hany : acc.any (fun q => q.1 == pr.1) = false := by
      rw [← Bool.not_eq_true]
      intro ha
      exact hnotmem ((any_fst_eq acc pr.1).mp ha)
    rw [hany]
    show collectDeps (prs'.map fun pr => lineChunk pr.2) (acc ++ [pr]) = _
    rw [ih (fun q hq => hx q (List.mem_cons_of_mem pr hq)) (acc ++ [pr])
      (by rw [← List.append_cons]; exact hnd)]
    rw [← List.append_cons]

theorem linesAux_entries (es : List (List Char))
    (hnn : ∀ e ∈ es, '\n' ∉ e) (hne : es ≠ []) :
    linesAux (("        ".data ++ joinSep (',' :: '\n' :: "        ".data) es)
        ++ (',' :: '\n' :: "    ".data)) [] =
      es.map lineChunk ++ ["    ".data] := by
  induction es with
  | nil => exact absurd rfl hne
  | cons e es' ih =>
    have hne' : '\n' ∉ e := hnn e (List.mem_cons_self e es')
    have hnl_chunk : '\n' ∉ "        ".data ++ (e ++ [',']) := by
      intro hm
      rcases List.mem_append.mp hm with hm | hm
      · exact absurd hm (by decide)
      · rcases List.mem_append.mp hm with hm | hm
        · exact hne' hm
        · exact absurd hm (by decide)
    cases es' with
    | nil =>
      have harg :
          ("        ".data ++ joinSep (',' :: '\n' :: "        ".data) [e])
              ++ (',' :: '\n' :: "    ".data) =
            ("        ".data ++ (e ++ [','])) ++ ('\n' :: "    ".data) := by
        show ("        ".data ++ e) ++ (',' :: '\n' :: "    ".data) = _
        simp [List.append_assoc]
      rw [harg,
        linesAux_split _ hnl_chunk "    ".data [] (by simp)]
      rw [linesAux_no_nl "    ".data (by decide) []]
      rw [List.reverse_nil, List.nil_append, List.nil_append]
      rw [stripCR_noop _ (by
        rw [List.getLast?_append_of_ne_nil _ (by simp),
          List.getLast?_append_of_ne_nil _ (by simp)]
        decide)]
      rfl
    | cons f fs =>
      have hjoin : joinSep (',' :: '\n' :: "        ".data) (e :: f :: fs) =
          (e ++ (',' :: '\n' :: "        ".data)) ++
            joinSep (',' :: '\n' :: "        ".data) (f :: fs) := rfl
      have harg :
          ("        ".data ++ joinSep (',' :: '\n' :: "        ".data)
              (e :: f :: fs)) ++ (',' :: '\n' :: "    ".data) =
            ("        ".data ++ (e ++ [','])) ++
              ('\n' :: (("        ".data ++
                joinSep (',' :: '\n' :: "        ".data) (f :: fs)) ++
                  (',' :: '\n' :: "    ".data))) := by
        rw [hjoin]
        simp [List.append_assoc]
      rw [harg,
        linesAux_split _ hnl_chunk _ [] (by simp)]
      rw [ih (fun q hq => hnn q (List.mem_cons_of_mem e hq)) (by simp)]
      rw [List.reverse_nil, List.nil_append]
      rw [stripCR_noop _ (by
        rw [List.getLast?_append_of_ne_nil _ (by simp),
          List.getLast?_append_of_ne_nil _ (by simp)]
        decide)]
      rfl

theorem head?_append_left (l m : List Char) (h : l ≠ []) :
    (l ++ m).head? = l.head? := by
  cases l with
  | nil => exact absurd rfl h
  | cons c cs => rfl

/-- Re-running the formatter core on the bracketed part of its own output
reproduces the output, provided every entry satisfies the per-line
round-trip and the list is deduplicated and sorted. -/
theorem renderDeps_roundtrip (sds : List (List Char × List Char))
    (hx : ∀ pr ∈ sds, extractEntry (lineChunk pr.2) = .keep pr.1 pr.2)
    (hnn : ∀ pr ∈ sds, '\n' ∉ pr.2)
    (hnd : (sds.map Prod.fst).Nodup)
    (hsorted : sds.Pairwise (fun a b => lexLe a.1 b.1 = true)) :
    sortDepsCore ((renderDeps sds).drop 7) = some (renderDeps sds) := by
  cases sds with
  | nil => decide
  | cons d ds' =>
    set sds := d :: ds' with hsds
    set es : List (List Char) := sds.map (fun pr => pr.2) with hes
    set J : List Char := joinSep ",\n        ".data es with hJ
    have hrd : renderDeps sds =
        ("deps = [\n        ".data ++ J) ++ ",\n    ]".data := by
      rw [renderDeps, if_neg (by simp [hsds])]
    have hdrop : (renderDeps sds).drop 7 =
        "[\n        ".data ++ (J ++ ",\n    ]".data) := by
      rw [hrd, List.append_assoc, List.drop_append_of_le_length (by decide)]
      rfl
    set z : List Char := "[\n        ".data ++ (J ++ ",\n    ]".data) with hz
    have hzhead : z.head? = some '[' := by
      rw [hz, head?_append_left _ _ (by decide)]
      rfl
    have hzlast : z.getLast? = some ']' := by
      rw [hz, List.getLast?_append_of_ne_nil _ (by simp),
        List.getLast?_append_of_ne_nil _ (by simp)]
      rfl
    have htrimz : trimList z = z := by
      apply trimList_noop
      · intro c hc
        rw [hzhead] at hc
        have : '[' = c := by simpa using hc
        rw [← this]
        decide
      · intro c hc
        rw [hzlast] at hc
        have : ']' = c := by simpa using hc
        rw [← this]
        decide
    have hinner : (z.drop 1).dropLast =
        '\n' :: (("        ".data ++ J) ++ ",\n    ".data) := by
      have h1 : z.drop 1 =
          '\n' :: ("        ".data ++ (J ++ ",\n    ]".data)) := rfl
      rw [h1]
      have h2 : '\n' :: ("        ".data ++ (J ++ ",\n    ]".data)) =
          ('\n' :: (("        ".data ++ J) ++ ",\n    ".data)) ++ [']'] := by
        simp [List.append_assoc]
      rw [h2, List.dropLast_concat]
    have hlines : linesCore ((z.drop 1).dropLast) =
        [] :: (sds.map (fun pr => lineChunk pr.2) ++ ["    ".data]) := by
      rw [hinner]
      rw [linesCore, if_neg (by simp)]
      rw [linesAux_nl _ [] (by simp)]
      have hsep : (",\n        ".data : List Char) =
          ',' :: '\n' :: "        ".data := rfl
      have hB : (",\n    ".data : List Char) = ',' :: '\n' :: "    ".data := rfl
      have hargs : ("        ".data ++ J) ++ ",\n    ".data =
          ("        ".data ++ joinSep (',' :: '\n' :: "        ".data) es)
            ++ (',' :: '\n' :: "    ".data) := by
        rw [hJ, hsep, hB]
      rw [hargs, linesAux_entries es ?_ (by simp [hes, hsds])]
      · have hmm : es.map lineChunk = sds.map (fun pr => lineChunk pr.2) := by
          rw [hes, List.map_map]
          rfl
        rw [hmm]
        rfl
      · intro e he
        rw [hes] at he
        obtain ⟨pr, hpr, hpe⟩ := List.mem_map.mp he
        exact hpe ▸ hnn pr hpr
    have hcoll : collectDeps (linesCore ((z.drop 1).dropLast)) [] =
        some sds := by
      rw [hlines]
      rw [collectDeps_cons_skip _ _ _ (by decide)]
      rw [collectDeps_append]
      rw [collectDeps_keeps sds hx [] (by simpa using hnd)]
      show collectDeps ["    ".data] ([] ++ sds) = some sds
      rw [List.nil_append]
      rw [collectDeps_cons_skip _ _ _ (by decide)]
      rfl
    have hsort : insertionSort (fun a b => lexLe a.1 b.1) sds = sds :=
      insertionSort_of_sorted _ sds hsorted
    rw [hdrop]
    unfold sortDepsCore
    rw [show trimList ("[\n        ".data ++ (J ++ ",\n    ]".data)) =
        trimList z from rfl, htrimz]
    rw [if_pos ⟨hzhead, hzlast⟩]
    rw [hcoll]
    show some (renderDeps (insertionSort (fun a b => lexLe a.1 b.1) sds)) =
      some (renderDeps sds)
    rw [hsort]

theorem depsOf_entry_facts (x : List Char) (ds : List (List Char × List Char))
    (hd : depsOf x = some ds) :
    (ds.map Prod.fst).Nodup ∧
      ∀ pr ∈ ds, extractFromDepLine pr.2 = .keep pr.1 pr.2 ∧
        trimList pr.2 = pr.2 ∧ '\n' ∉ pr.2 := by
  unfold depsOf at hd
  by_cases hg : (trimList x).head? = some '[' ∧ (trimList x).getLast? = some ']'
  · rw [if_pos hg] at hd
    obtain ⟨h1, h2⟩ := collectDeps_invariant _ [] ds hd
    refine ⟨h2 (by simp), ?_⟩
    intro pr hpr
    rcases h1 pr hpr with hin | ⟨_, hfind⟩
    · simp at hin
    · have hmem := List.mem_of_find?_eq_some hfind
      obtain ⟨raw, hraw, hkraw⟩ := List.mem_filterMap.mp hmem
      cases hext : extractEntry raw with
      | skip => rw [hext] at hkraw; exact absurd hkraw (by simp)
      | badSlice => rw [hext] at hkraw; exact absurd hkraw (by simp)
      | keep nm dl =>
        rw [hext] at hkraw
        have hpr' : (nm, dl) = pr := by simpa using hkraw
        have hefdl : extractFromDepLine
            (trimList (trimEndCommas (trimList raw))) = .keep nm dl := by
          unfold extractEntry at hext
          by_cases hcnd : trimList raw = [] ∨ trimList raw = [',']
          · rw [if_pos hcnd] at hext
            exact EntryResult.noConfusion hext
          · rw [if_neg hcnd] at hext
            exact hext
        obtain ⟨hdl, _⟩ := extractFromDepLine_keep _ nm dl hefdl
        have htr : trimList dl = dl := by
          rw [hdl]
          exact trimList_idem _
        have hnl : '\n' ∉ dl := by
          intro hm
          rw [hdl] at hm
          have hm1 := mem_of_mem_trimList _ _ hm
          have hm2 := mem_of_mem_trimEndCommas _ _ hm1
          have hm3 := mem_of_mem_trimList _ _ hm2
          exact linesCore_no_nl _ raw hraw hm3
        have hk : extractFromDepLine dl = .keep nm dl := by
          rw [← hdl] at hefdl
          exact hefdl
        rw [← hpr']
        exact ⟨hk, htr, hnl⟩
  · rw [if_neg hg] at hd
    have : ds = [] := (Option.some.inj hd).symm
    subst this
    exact ⟨by simp, fun pr hpr => absurd hpr (by simp)⟩

/-- C7 counterexample: the parseable deps list containing the single entry
line `"a" #x, ,` (a trailing comment whose text ends in `, ,`): the first
formatter pass keeps the line `"a" #x,` and renders it with an appended
comma as `"a" #x,,`; the second pass strips BOTH trailing commas, so
formatting the formatted output differs from formatting once. -/
theorem C7_counterexample :
    sortDepsCore "[\n    \"a\" #x, ,\n]".data =
        some "deps = [\n        \"a\" #x,,\n    ]".data ∧
      sortDepsCore ("deps = [\n        \"a\" #x,,\n    ]".data.drop 7) =
        some "deps = [\n        \"a\" #x,\n    ]".data ∧
      ("deps = [\n        \"a\" #x,\n    ]".data : List Char) ≠
        "deps = [\n        \"a\" #x,,\n    ]".data := by
  decide

/-- C7 (amended): the formatter core is idempotent on every input whose
kept entry lines do not end in a comma (in particular whenever no entry
carries a comment with trailing commas): if formatting the captured list
text yields `y`, re-formatting the bracketed part of `y` (the list node a
re-parse captures, i.e. `y` without its leading `deps = `) yields `y`
again.  Inputs with a kept line ending in `,` violate idempotence, see the
counterexample. -/
theorem C7_theorem (x y : List Char) (h : sortDepsCore x = some y)
    (hc : ∀ pr ∈ (depsOf x).getD [], pr.2.getLast? ≠ some ',') :
    sortDepsCore (y.drop 7) = some y := by
  rw [sortDepsCore_eq_depsOf] at h
  cases hd : depsOf x with
  | none =>
    rw [hd] at h
    exact absurd h (by simp)
  | some ds =>
    rw [hd] at h
    have h' : some (renderDeps (insertionSort (fun a b => lexLe a.1 b.1) ds)) =
        some y := h
    have hy : y = renderDeps (insertionSort (fun a b => lexLe a.1 b.1) ds) :=
      (Option.some.inj h').symm
    simp only [hd, Option.getD_some] at hc
    obtain ⟨hnd, hfacts⟩ := depsOf_entry_facts x ds hd
    have hperm := perm_insertionSort (fun a b => lexLe a.1 b.1) ds
    have hmem : ∀ pr ∈ insertionSort (fun a b => lexLe a.1 b.1) ds, pr ∈ ds :=
      fun pr hpr => hperm.mem_iff.mp hpr
    rw [hy]
    apply renderDeps_roundtrip
    · intro pr hpr
      obtain ⟨hk, htr, _⟩ := hfacts pr (hmem pr hpr)
      exact extractEntry_lineChunk pr.1 pr.2 hk htr (hc pr (hmem pr hpr))
    · exact fun pr hpr => (hfacts pr (hmem pr hpr)).2.2
    · exact ((hperm.map Prod.fst).nodup_iff).mpr hnd
    · exact pairwise_insertionSort _
        (fun a b c hab hbc => lexLe_trans a.1 b.1 c.1 hab hbc)
        (fun a b => lexLe_total a.1 b.1) ds

theorem C7_witness :
    sortDepsCore
        (("deps = [\n        \"a\",\n        \"b\",\n    ]".data :
          List Char).drop 7) =
      some "deps = [\n        \"a\",\n        \"b\",\n    ]".data := by
  apply C7_theorem "[\n        \"b\",\n        \"a\",\n    ]".data
  · decide
  · decide

end BazelLsp
